import Mathlib

/-!
# Verification of the simple_calculator expression editor and evaluator

This file is a shallow embedding of the calculator's core
(`src/calculator.py` together with the constants of `src/config.py`) and a
development of theorems about it.

Modeling conventions:

* Python strings are modeled as `String` / `List Char`; all character-level
  work is done on `List Char`.
* Python floats are modeled by exact rationals (`ℚ`).  All concrete values
  appearing in the theorems below are values on which IEEE-double and exact
  rational arithmetic produce the same displayed result.  Where Python's
  `str(float)` would switch to exponent notation (magnitude below 1e-4) the
  model of `format_number` is deliberately partial (it yields a `'?'`
  placeholder) and the general theorems carry explicit range hypotheses, so
  that nothing is claimed about inputs where the rational model and IEEE
  semantics could diverge.
* Python exceptions are modeled by `Option`: a helper that can raise
  (e.g. an `IndexError` from `expression[-2]`) returns `none` there, and the
  managers translate `none` into the rejected-edit result exactly as the
  `try/except` blocks in the source do.
* The two regular expressions of the source are compiled by hand into
  total scanning functions.  The alternation/greediness analysis justifying
  each scanner is recorded in comments next to it.
-/

namespace SimpleCalc

/-! ## config.py -/

namespace DisplayConfig

def MAX_DISPLAY_LENGTH : Nat := 12

def SCIENTIFIC_PRECISION : Nat := 6

def DECIMAL_PLACES : Nat := 10

end DisplayConfig

namespace CalculatorConfig

/-- `CalculatorConfig.OPERATORS` -/
def OPERATORS : List Char := ['+', '-', '×', '÷']

/-- `CalculatorConfig.SPECIAL_CHARS` -/
def SPECIAL_CHARS : List Char := ['%', '.', ')', '(']

/-- `CalculatorConfig.INITIAL_DISPLAY` -/
def INITIAL_DISPLAY : String := "0"

end CalculatorConfig

/-! ## Decimal digit strings

`natStr n` is the base-10 rendering of a natural number (the digits of
Python's `str(int)`), written with explicit fuel so that it is structurally
recursive and kernel-reducible.  `parseNat` folds a digit string back to a
number, as `int`/`float` parsing does. -/

/-- The character for a decimal digit `d < 10`. -/
def dChar (d : Nat) : Char := Char.ofNat (48 + d)

/-- Little-endian digit characters of `n`; `fuel ≥ n` makes it total. -/
def natDigitsRev : Nat → Nat → List Char
  | 0, _ => []
  | _ + 1, 0 => []
  | f + 1, n + 1 => dChar ((n + 1) % 10) :: natDigitsRev f ((n + 1) / 10)

/-- Decimal rendering of a natural number, as Python's `str`. -/
def natStr (n : Nat) : List Char :=
  if n = 0 then ['0'] else (natDigitsRev n n).reverse

/-- Decimal rendering of an integer, as Python's `str`. -/
def intStr (n : Int) : List Char :=
  if n < 0 then '-' :: natStr n.natAbs else natStr n.natAbs

/-- Value of a big-endian digit string. -/
def parseNat (l : List Char) : Nat :=
  l.foldl (fun a c => 10 * a + (c.toNat - 48)) 0

/-- Value of a little-endian digit string. -/
def valLE : List Char → Nat
  | [] => 0
  | c :: cs => (c.toNat - 48) + 10 * valLE cs

/-! ## The trailing-number pattern of `toggle_sign`

`toggle_sign` runs
`re.search(r'(?:\d+(?:\.\d+)?|\(-\d+(?:\.\d+)?\)|\(\d+(?:\.\d+)?\))$', e)`.
Because every alternative is anchored at the end of the string, a match
starting at position `i` exists iff the whole suffix `e[i:]` is exactly one
of the three alternatives; `re.search` returns the leftmost such suffix.
`isBare`, `isParenNeg`, `isParenPos` are full-string matchers for the three
alternatives, and `trailingSearch` finds the leftmost suffix split. -/

/-- Full match of `\d+(?:\.\d+)?`: a nonempty digit run, optionally
followed by a dot and another nonempty digit run. -/
def isBare (s : List Char) : Bool :=
  !(s.takeWhile Char.isDigit).isEmpty &&
    ((s.dropWhile Char.isDigit).isEmpty ||
      ((s.dropWhile Char.isDigit).headD ' ' = '.' &&
       !(s.dropWhile Char.isDigit).tail.isEmpty &&
       (s.dropWhile Char.isDigit).tail.all Char.isDigit))

/-- Full match of `\(-\d+(?:\.\d+)?\)`. -/
def isParenNeg (s : List Char) : Bool :=
  s.headD ' ' = '(' && s.tail.headD ' ' = '-' &&
    s.tail.tail.getLast? == some ')' && isBare s.tail.tail.dropLast

/-- Full match of `\(\d+(?:\.\d+)?\)`.  (A `-` after the paren makes
`isBare` fail on the inner body, so the two paren matchers do not
overlap.) -/
def isParenPos (s : List Char) : Bool :=
  s.headD ' ' = '(' && s.tail.getLast? == some ')' && isBare s.tail.dropLast

def isNumToken (s : List Char) : Bool :=
  isBare s || isParenNeg s || isParenPos s

/-- Leftmost split `e = p ++ t` with `t` a full match of the trailing-number
pattern; models the anchored `re.search` of `toggle_sign`. -/
def trailingSearch : List Char → Option (List Char × List Char)
  | [] => none
  | c :: rest =>
    if isNumToken (c :: rest) then some ([], c :: rest)
    else (trailingSearch rest).map fun pt => (c :: pt.1, pt.2)

/-! ## Decimal number parsing and rendering

`parseDec` models `float(s)` on the digit shapes that actually reach it in
this program (an optional minus sign, an integer part, an optional fraction —
exactly the substrings matched by the regexes above and produced by
`format_number`).  `format_number` models `str` on a float holding an exact
decimal value: integers render with no decimal point, other values render
positionally with the shortest terminating expansion.  Python's `str`
switches to exponent notation below 1e-4; that regime is out of the model
(`ratDotBody` returns `none`, `format_number` a `'?'` placeholder) and every
general theorem about `format_number` carries a range hypothesis keeping it
away from that regime. -/

def parseUnsigned (l : List Char) : Option ℚ :=
  let a := l.takeWhile Char.isDigit
  let r := l.dropWhile Char.isDigit
  if a.isEmpty then none
  else
    match r with
    | [] => some (parseNat a)
    | '.' :: b =>
      if !b.isEmpty && b.all Char.isDigit then
        some ((parseNat a : ℚ) + (parseNat b : ℚ) / 10 ^ b.length)
      else none
    | _ => none

def parseDec (l : List Char) : Option ℚ :=
  if l.headD ' ' = '-' then (parseUnsigned l.tail).map Neg.neg
  else parseUnsigned l

/-- Python's `s.strip('()')`: remove any run of parenthesis characters from
both ends. -/
def stripParens (l : List Char) : List Char :=
  ((l.dropWhile fun c => c = '(' || c = ')').reverse.dropWhile
    fun c => c = '(' || c = ')').reverse

/-- `ExpressionBuilder.normalize_number`: strip parens, parse as a float. -/
def normalize_number (l : List Char) : Option ℚ := parseDec (stripParens l)

def padZeros (k : Nat) (l : List Char) : List Char :=
  List.replicate (k - l.length) '0' ++ l

/-- Least exponent `k ≥ 1` with `den ∣ 10 ^ k` (the length of the shortest
terminating decimal expansion), found by search. -/
def findTermK (den : Nat) : Option Nat :=
  (List.range (den + 1)).find? fun k => decide (0 < k ∧ den ∣ 10 ^ k)

/-- Positional digits of a positive non-integer rational with a terminating
decimal expansion, e.g. `5/2 ↦ "2.5"`. -/
def ratDotBody (x : ℚ) : Option (List Char) :=
  if (1 : ℚ)/10^4 ≤ x ∧ x < 10^16 then
    (findTermK x.den).map fun k =>
      let M := x.num.natAbs * (10 ^ k / x.den)
      natStr (M / 10 ^ k) ++ '.' :: padZeros k (natStr (M % 10 ^ k))
  else none

/-- `ExpressionBuilder.format_number`: integers render without a decimal
point; negative numbers are wrapped in parentheses. -/
def format_number (q : ℚ) : List Char :=
  if q.den = 1 then
    if q < 0 then '(' :: intStr q.num ++ [')'] else intStr q.num
  else
    ((ratDotBody |q|).map fun body =>
      if q < 0 then '(' :: '-' :: body ++ [')'] else body).getD ['?']

/-! ## InputValidator -/

/-- `InputValidator.can_append_digit`. -/
def can_append_digit (l : List Char) (d : Char) : Bool :=
  if l.isEmpty then d != '0'
  else
    let last := l.getLastD ' '
    if 2 ≤ l.length && last = '0' &&
        ((l.dropLast.getLastD ' ') ∈ CalculatorConfig.OPERATORS ++ ['%']) then
      false
    else if last = '%' then false
    else true

/-- `InputValidator.can_append_operator`. -/
def can_append_operator (l : List Char) : Bool :=
  if l.isEmpty then true
  else
    let last := l.getLastD ' '
    if last ∈ CalculatorConfig.OPERATORS || last ∈ CalculatorConfig.SPECIAL_CHARS then
      true
    else if last.isDigit then true
    else false

/-- The split set of `re.split(r'[\+\-\×÷\(\)]', expression)`. -/
def segSplitChars : List Char := ['+', '-', '×', '÷', '(', ')']

/-- `re.split` on single characters, keeping empty pieces. -/
def splitSegs : List Char → List (List Char)
  | [] => [[]]
  | c :: rest =>
    let r := splitSegs rest
    if c ∈ segSplitChars then [] :: r
    else
      match r with
      | [] => [[c]]
      | s :: ss => (c :: s) :: ss

/-- `InputValidator.can_append_dot`.  `none` models the `IndexError` raised
by `expression[-2]` on a one-character expression ending in an operator;
the managers catch it. -/
def can_append_dot (l : List Char) : Option Bool :=
  if l.isEmpty then some true
  else
    let last := l.getLastD ' '
    let segs := splitSegs l
    if last.isDigit && !(segs.getLastD []).contains '.' then some true
    else if last ∈ CalculatorConfig.OPERATORS then
      if !((segs.getD (segs.length - 2) []).contains '.') then
        if l.length < 2 then none
        else if (l.dropLast.getLastD ' ') ∉ [')', '%'] then some true
        else some false
      else some false
    else some false

/-! ## ExpressionBuilder (string edits) -/

/-- `ExpressionBuilder.append_digit_to_expression`. -/
def append_digit_to_expression (l : List Char) (d : Char) : List Char :=
  if !l.isEmpty && l.getLastD ' ' = ')' then l ++ ['×', d]
  else l ++ [d]

/-- `ExpressionBuilder.append_operator_to_expression`. -/
def append_operator_to_expression (l : List Char) (op : Char) : List Char :=
  if l.isEmpty then ['0', op]
  else if l.getLastD ' ' ∈ CalculatorConfig.OPERATORS ++ ['.'] then
    l.dropLast ++ [op]
  else l ++ [op]

/-! ## CalculationState and ExpressionManager

Each of the seven editing operations is a pure function from the state to
an `EditResult` (the returned `(changed, display)` pair plus the state as it
stands on return).  `_return_change_result` shows that the display is always
either the current expression or the `INITIAL_DISPLAY` sentinel. -/

structure CalculationState where
  expression : String
  calculation_done : Bool
deriving DecidableEq, Repr

structure EditResult where
  changed : Bool
  display : String
  state : CalculationState
deriving DecidableEq, Repr

/-- `_return_change_result(False)`: state untouched, display = expression. -/
def retNoChange (s : CalculationState) : EditResult := ⟨false, s.expression, s⟩

/-- `_return_change_result(True)`: display = (new) expression. -/
def retChange (s : CalculationState) : EditResult := ⟨true, s.expression, s⟩

/-- `_return_change_result(True, INITIAL_DISPLAY)`. -/
def retInitial (s : CalculationState) : EditResult :=
  ⟨true, CalculatorConfig.INITIAL_DISPLAY, s⟩

/-- `ExpressionManager.add_digit`. -/
def add_digit (s : CalculationState) (d : Char) : EditResult :=
  if s.calculation_done then
    if d = '0' then retInitial ⟨"", false⟩
    else retChange ⟨String.mk [d], false⟩
  else if can_append_digit s.expression.toList d then
    retChange ⟨String.mk (append_digit_to_expression s.expression.toList d),
      s.calculation_done⟩
  else retNoChange s

/-- The `if self.state.is_calculation_done: self.state.reset_calculation_state()`
prologue shared by `add_operator`, `toggle_sign`, `add_percent`, `clear_all`:
the flag is cleared *before* any validation. -/
def resetDone (s : CalculationState) : CalculationState :=
  if s.calculation_done then { s with calculation_done := false } else s

/-- `ExpressionManager.add_operator`. -/
def add_operator (s0 : CalculationState) (op : Char) : EditResult :=
  if can_append_operator (resetDone s0).expression.toList then
    retChange { resetDone s0 with
      expression :=
        String.mk (append_operator_to_expression (resetDone s0).expression.toList op) }
  else retNoChange (resetDone s0)

/-- `ExpressionManager.add_decimal_point`. -/
def add_decimal_point (s : CalculationState) : EditResult :=
  if s.calculation_done then retChange ⟨"0.", false⟩
  else if s.expression.toList.isEmpty then retChange ⟨"0.", s.calculation_done⟩
  else
    match can_append_dot s.expression.toList with
    | none => retNoChange s
    | some false => retNoChange s
    | some true =>
      if (s.expression.toList.getLastD ' ').isDigit then
        retChange { s with expression := String.mk (s.expression.toList ++ ['.']) }
      else if s.expression.toList.getLastD ' ' ∈ CalculatorConfig.OPERATORS then
        if (s.expression.toList.dropLast.getLastD ' ') ∉ [')', '%'] then
          retChange { s with
            expression := String.mk (s.expression.toList.dropLast ++ ['.']) }
        else retNoChange s
      else retNoChange s

/-- `ExpressionManager.toggle_sign`.  The flag is cleared before the trailing
number is even looked for. -/
def toggle_sign (s0 : CalculationState) : EditResult :=
  match trailingSearch (resetDone s0).expression.toList with
  | none => retNoChange (resetDone s0)
  | some pt =>
    match normalize_number pt.2 with
    | none => retNoChange (resetDone s0)
    | some q =>
      if q = 0 then retNoChange (resetDone s0)
      else retChange { resetDone s0 with
        expression := String.mk (pt.1 ++ format_number (-q)) }

/-- `ExpressionManager.add_percent`.  The `l.length < 2` test models the
`IndexError` of `expression[-2]` on a one-character operator expression,
which the `except` clause turns into a rejected edit. -/
def add_percent (s0 : CalculationState) : EditResult :=
  if (resetDone s0).expression.toList.isEmpty then retNoChange (resetDone s0)
  else if (resetDone s0).expression.toList.getLastD ' ' ∈ CalculatorConfig.OPERATORS then
    if (resetDone s0).expression.toList.length < 2 then retNoChange (resetDone s0)
    else if (resetDone s0).expression.toList.dropLast.getLastD ' ' = '%' then
      retNoChange (resetDone s0)
    else retChange { resetDone s0 with
      expression := String.mk ((resetDone s0).expression.toList.dropLast ++ ['%']) }
  else if (resetDone s0).expression.toList.getLastD ' ' = '%' ||
      (resetDone s0).expression.toList.getLastD ' ' = '.' then
    retChange { resetDone s0 with
      expression := String.mk ((resetDone s0).expression.toList.dropLast ++ ['%']) }
  else retChange { resetDone s0 with
    expression := String.mk ((resetDone s0).expression.toList ++ ['%']) }

/-- Index of the rightmost `'('`, as the backward scan of
`clear_last_input` finds it. -/
def lastParenIdx : List Char → Option Nat
  | [] => none
  | c :: rest =>
    match lastParenIdx rest with
    | some j => some (j + 1)
    | none => if c = '(' then some 0 else none

/-- `ExpressionManager.clear_last_input`.  The paren branch splices
`expr[:i] + expr[i+2:-1]`. -/
def clear_last_input (s : CalculationState) : EditResult :=
  if s.calculation_done then retInitial ⟨"", false⟩
  else if s.expression.toList.length ≤ 1 then retInitial ⟨"", s.calculation_done⟩
  else if s.expression.toList.getLastD ' ' = ')' then
    match lastParenIdx s.expression.toList with
    | some i =>
      retChange { s with
        expression := String.mk (s.expression.toList.take i ++
          (s.expression.toList.drop (i + 2)).dropLast) }
    | none => retNoChange s
  else if s.expression.toList.length = 2 && s.expression.toList.headD ' ' = '0' then
    retInitial ⟨"", s.calculation_done⟩
  else retChange { s with expression := String.mk s.expression.toList.dropLast }

/-- `ExpressionManager.clear_all`.  The flag is cleared before the
emptiness test. -/
def clear_all (s0 : CalculationState) : EditResult :=
  if (resetDone s0).expression.toList.isEmpty then retNoChange (resetDone s0)
  else retInitial ⟨"", (resetDone s0).calculation_done⟩

/-- The seven user-facing editing operations of `ExpressionManager`. -/
inductive Op
  | addDigit (d : Char)
  | addOperator (c : Char)
  | addDecimalPoint
  | toggleSign
  | addPercent
  | clearLastInput
  | clearAll
deriving DecidableEq

def applyOp : Op → CalculationState → EditResult
  | .addDigit d, s => add_digit s d
  | .addOperator c, s => add_operator s c
  | .addDecimalPoint, s => add_decimal_point s
  | .toggleSign, s => toggle_sign s
  | .addPercent, s => add_percent s
  | .clearLastInput, s => clear_last_input s
  | .clearAll, s => clear_all s

/-! ## ExpressionEvaluator: normalization -/

/-- `ExpressionEvaluator.normalize_expression`.  Note the order faithfully
follows the source: the trailing character is compared against the ASCII
set `('+', '-', '*', '/', '.')` *before* the display glyphs `×`, `÷` are
mapped to `*`, `/`. -/
def normalize_expression (l : List Char) : List Char :=
  (if l.getLastD ' ' ∈ ['+', '-', '*', '/', '.'] then l.dropLast else l).map
    fun c => if c = '×' then '*' else if c = '÷' then '/' else c

/-! ## The token scanner of `_transform_percent_expression`

`re.findall(r'\(-?\d+(?:\.\d+)?\)%?|-?\d+(?:\.\d+)?%?|[+\-*/()]', e)` scans
left to right, trying the three alternatives in order at each position and
skipping one character when none matches.  Greedy matching of each `\d+`
never needs backtracking here: shortening a digit run leaves a digit in
front, on which none of the follow-up pieces (`.`, `)`, `%`, end of
alternative) can make progress.  The same argument applies to the optional
pieces, so each alternative is compiled to a deterministic scanner. -/

def takeDigits (l : List Char) : List Char × List Char :=
  (l.takeWhile Char.isDigit, l.dropWhile Char.isDigit)

/-- `(?:\.\d+)?` — an optional fraction; unmatched if no digit follows. -/
def optFrac (l : List Char) : List Char × List Char :=
  match l with
  | '.' :: r =>
    let b := r.takeWhile Char.isDigit
    if b.isEmpty then ([], l) else ('.' :: b, r.dropWhile Char.isDigit)
  | _ => ([], l)

/-- Alternative `\(-?\d+(?:\.\d+)?\)%?` as a scanner. -/
def matchParenNum (l : List Char) : Option (List Char × List Char) :=
  match l with
  | '(' :: l1 =>
    let (sgn, l2) := match l1 with | '-' :: r => (['-'], r) | _ => ([], l1)
    let (a, l3) := takeDigits l2
    if a.isEmpty then none
    else
      let (fr, l4) := optFrac l3
      match l4 with
      | ')' :: '%' :: l5 => some ('(' :: sgn ++ a ++ fr ++ [')', '%'], l5)
      | ')' :: l5 => some ('(' :: sgn ++ a ++ fr ++ [')'], l5)
      | _ => none
  | _ => none

/-- Alternative `-?\d+(?:\.\d+)?%?` as a scanner. -/
def matchBareNum (l : List Char) : Option (List Char × List Char) :=
  let (sgn, l1) := match l with | '-' :: r => (['-'], r) | _ => ([], l)
  let (a, l2) := takeDigits l1
  if a.isEmpty then none
  else
    let (fr, l3) := optFrac l2
    match l3 with
    | '%' :: l4 => some (sgn ++ a ++ fr ++ ['%'], l4)
    | _ => some (sgn ++ a ++ fr, l3)

/-- Alternative `[+\-*/()]`. -/
def matchSingleOp (l : List Char) : Option (List Char × List Char) :=
  match l with
  | c :: r => if c ∈ ['+', '-', '*', '/', '(', ')'] then some ([c], r) else none
  | [] => none

/-- The full `re.findall` token scan (fuel = input length suffices since
every step consumes at least one character). -/
def findallTokens : Nat → List Char → List (List Char)
  | 0, _ => []
  | _ + 1, [] => []
  | f + 1, l =>
    match matchParenNum l with
    | some tr => tr.1 :: findallTokens f tr.2
    | none =>
      match matchBareNum l with
      | some tr => tr.1 :: findallTokens f tr.2
      | none =>
        match matchSingleOp l with
        | some tr => tr.1 :: findallTokens f tr.2
        | none => findallTokens f l.tail

/-- One match of `\(?-?\d+(?:\.\d+)?\)?%` (the `percent_numbers` regex). -/
def matchPctNum (l : List Char) : Option (List Char × List Char) :=
  let (p1, l1) := match l with | '(' :: r => (['('], r) | _ => ([], l)
  let (sgn, l2) := match l1 with | '-' :: r => (['-'], r) | _ => ([], l1)
  let (a, l3) := takeDigits l2
  if a.isEmpty then none
  else
    let (fr, l4) := optFrac l3
    let (p2, l5) := match l4 with | ')' :: r => ([')'], r) | _ => ([], l4)
    match l5 with
    | '%' :: l6 => some (p1 ++ sgn ++ a ++ fr ++ p2 ++ ['%'], l6)
    | _ => none

/-- The `percent_numbers` list: all matches, with parens stripped. -/
def percentScan : Nat → List Char → List (List Char)
  | 0, _ => []
  | _ + 1, [] => []
  | f + 1, l =>
    match matchPctNum l with
    | some tr => (tr.1.filter fun c => c ≠ '(' && c ≠ ')') :: percentScan f tr.2
    | none => percentScan f l.tail

/-! ## The percent transform -/

def isOpToken (t : List Char) : Bool := t ∈ [['+'], ['-'], ['*'], ['/']]

/-- `re.match(r'\(-?\d+(?:\.\d+)?\)|-?\d+(?:\.\d+)?', tk)` is not `None`:
a prefix match, so anything after the matched prefix is ignored. -/
def isNumberStart (t : List Char) : Bool :=
  (matchParenNum t).isSome ||
    (let l1 := match t with | '-' :: r => r | _ => t
     !(l1.takeWhile Char.isDigit).isEmpty)

/-- The backward scan `for j in range(i - 1, -1, -1)`: `scanBack p toks i`
inspects indices `i-1, i-2, …, 0` and returns the first hit. -/
def scanBack (p : List Char → Bool) (tokens : List (List Char)) :
    Nat → Option (Nat × List Char)
  | 0 => none
  | j + 1 =>
    let t := tokens.getD j []
    if p t then some (j, t) else scanBack p tokens j

/-- The token-rewriting loop of `_transform_percent_expression`, emitting the
concatenation of the transformed tokens.  `prevValue` models `prev_value`.
`tokens.getD (i - 2) []` is only consulted on the branch where an operator at
some `j < i` and a number at some `k < j` were found, hence `i ≥ 2` and the
`Nat` truncation of `i - 2` agrees with Python's indexing. -/
def transformLoop (tokens pnums : List (List Char)) :
    Nat → Nat → List Char → List Char
  | 0, _, _ => []
  | f + 1, i, prevValue =>
    if i < tokens.length then
      let token0 := tokens.getD i []
      let token := if token0.headD ' ' = '(' then
          token0.filter (fun c => c ≠ '(' && c ≠ ')') else token0
      if token.getLastD ' ' = '%' then
        let np := token.dropLast
        let opRes := scanBack isOpToken tokens i
        let base : Option (List Char) :=
          match opRes with
          | some jop =>
            match scanBack isNumberStart tokens jop.1 with
            | some kt => some (if prevValue ≠ [] then prevValue else kt.2)
            | none => none
          | none => none
        let plusMinus : Bool :=
          match opRes with
          | some jop => jop.2 = ['+'] || jop.2 = ['-']
          | none => false
        let out : List Char :=
          match base, plusMinus with
          | some b, true => '(' :: b ++ '*' :: np ++ ['/', '1', '0', '0', ')']
          | _, _ => '(' :: np ++ ['/', '1', '0', '0', ')']
        let current : List Char :=
          match base, plusMinus, opRes with
          | some b, true, some jop =>
            '(' :: tokens.getD (i - 2) [] ++ jop.2 ++
              '(' :: b ++ '*' :: np ++ ['/', '1', '0', '0', ')', ')']
          | _, _, _ => '(' :: np ++ ['/', '1', '0', '0', ')']
        let prevValue' :=
          if i + 2 < tokens.length && (tokens.getD (i + 2) []) ∈ pnums then
            current
          else []
        out ++ transformLoop tokens pnums f (i + 1) prevValue'
      else token ++ transformLoop tokens pnums f (i + 1) prevValue
    else []

/-- `ExpressionEvaluator._transform_percent_expression`. -/
def transform_percent_expression (l : List Char) : List Char :=
  let tokens := findallTokens (l.length + 1) l
  let pnums := percentScan (l.length + 1) l
  transformLoop tokens pnums (tokens.length + 1) 0 []

/-! ## Arithmetic evaluation

`eval(expression)` on the pure arithmetic strings this program produces:
decimal literals (with Python's leading-zero rule for integer literals),
`+ - * /` with standard precedence, unary signs and parentheses, exact
rational arithmetic, failure (`none`) on malformed input and on division by
zero.  Implemented as a fuel-indexed recursive-descent parser. -/

/-- A Python numeric literal: `\d+`, `\d+.\d*`, or `.\d+`; a plain integer
literal must not have a leading zero unless it is all zeros. -/
def parseNumLit (l : List Char) : Option (ℚ × List Char) :=
  let (a, r) := takeDigits l
  if a.isEmpty then
    match l with
    | '.' :: r2 =>
      let (b, r3) := takeDigits r2
      if b.isEmpty then none
      else some ((parseNat b : ℚ) / 10 ^ b.length, r3)
    | _ => none
  else
    match r with
    | '.' :: r2 =>
      let (b, r3) := takeDigits r2
      some ((parseNat a : ℚ) + (parseNat b : ℚ) / 10 ^ b.length, r3)
    | _ =>
      if a.headD '0' ≠ '0' || a.all (· = '0') then some ((parseNat a : ℚ), r)
      else none

mutual

/-- expression := term (('+' | '-') term)* -/
def parseE : Nat → List Char → Option (ℚ × List Char)
  | 0, _ => none
  | f + 1, l =>
    match parseT f l with
    | some ar => parseETail f ar.1 ar.2
    | none => none

def parseETail : Nat → ℚ → List Char → Option (ℚ × List Char)
  | 0, _, _ => none
  | f + 1, a, l =>
    match l with
    | '+' :: r =>
      match parseT f r with
      | some br => parseETail f (a + br.1) br.2
      | none => none
    | '-' :: r =>
      match parseT f r with
      | some br => parseETail f (a - br.1) br.2
      | none => none
    | _ => some (a, l)

/-- term := factor (('*' | '/') factor)*; division by zero fails. -/
def parseT : Nat → List Char → Option (ℚ × List Char)
  | 0, _ => none
  | f + 1, l =>
    match parseF f l with
    | some ar => parseTTail f ar.1 ar.2
    | none => none

def parseTTail : Nat → ℚ → List Char → Option (ℚ × List Char)
  | 0, _, _ => none
  | f + 1, a, l =>
    match l with
    | '*' :: r =>
      match parseF f r with
      | some br => parseTTail f (a * br.1) br.2
      | none => none
    | '/' :: r =>
      match parseF f r with
      | some br => if br.1 = 0 then none else parseTTail f (a / br.1) br.2
      | none => none
    | _ => some (a, l)

/-- factor := ('+' | '-')* (numeral | '(' expression ')') -/
def parseF : Nat → List Char → Option (ℚ × List Char)
  | 0, _ => none
  | f + 1, l =>
    match l with
    | '-' :: r => (parseF f r).map fun br => (-br.1, br.2)
    | '+' :: r => parseF f r
    | '(' :: r =>
      match parseE f r with
      | some ar =>
        match ar.2 with
        | ')' :: r2 => some (ar.1, r2)
        | _ => none
      | none => none
    | _ => parseNumLit l

end

/-- `eval` of a full arithmetic string: the whole input must be consumed.
This is the numeric restriction of `eval`; `evalPy` below extends it with
the string values `eval` can also produce. -/
def evalArith (l : List Char) : Option ℚ :=
  match parseE (3 * l.length + 3) l with
  | some qr => if qr.2.isEmpty then some qr.1 else none
  | _ => none

/-! ## Result formatting -/

/-- Floor of a rational, computably. -/
def myFloor (x : ℚ) : Int := Int.fdiv x.num x.den

/-- Round to the nearest integer, ties to even — the rounding used by
Python's `format` on the exact value held by the model. -/
def roundHalfEven (x : ℚ) : Int :=
  let f := myFloor x
  let r := x - f
  if r < 1 / 2 then f
  else if 1 / 2 < r then f + 1
  else if f % 2 = 0 then f else f + 1

/-- `f'{q:.{k}f}'`: fixed-point with `k` decimal places. -/
def fixedStr (k : Nat) (q : ℚ) : List Char :=
  let n := (roundHalfEven (|q| * 10 ^ k)).toNat
  (if q < 0 then ['-'] else []) ++ natStr (n / 10 ^ k) ++
    (if k = 0 then [] else '.' :: padZeros k (natStr (n % 10 ^ k)))

/-- `.rstrip('0').rstrip('.')`. -/
def stripTrail (l : List Char) : List Char :=
  ((l.reverse.dropWhile fun c => c = '0').dropWhile fun c => c = '.').reverse

/-- The exponent `E` with `10^E ≤ x < 10^(E+1)` for positive `x`, found from
the integer digit count or by search for small values. -/
def exp10 (x : ℚ) : Int :=
  if 1 ≤ x then ((natStr (myFloor x).toNat).length : Int) - 1
  else
    match (List.range (x.den + 2)).find? fun j =>
        decide (0 < j ∧ 1 ≤ x * 10 ^ j) with
    | some j => -(j : Int)
    | none => 0

/-- `f'{q:.{p}e}'`: scientific notation, `p` mantissa decimals, exponent of
at least two digits, with carry into the exponent when the mantissa rounds
up to `10`. -/
def sciStr (p : Nat) (q : ℚ) : List Char :=
  if q = 0 then '0' :: '.' :: List.replicate p '0' ++ ['e', '+', '0', '0']
  else
    let x := |q|
    let E := exp10 x
    let m0 := (roundHalfEven (x * (10 : ℚ) ^ ((p : Int) - E))).toNat
    let m := if m0 = 10 ^ (p + 1) then 10 ^ p else m0
    let Ef := if m0 = 10 ^ (p + 1) then E + 1 else E
    let ds := natStr m
    (if q < 0 then ['-'] else []) ++ ds.headD '0' :: '.' :: ds.tail ++
      ['e'] ++ (if Ef < 0 then ['-'] else ['+']) ++ padZeros 2 (natStr Ef.natAbs)

/-- `ExpressionEvaluator.format_result` on a numeric result.  (The
source's `isinstance(result, str)` branch, which returns a string value of
`eval` verbatim, is modeled by `format_result_full` below.) -/
def format_result (q : ℚ) : String :=
  if q.den = 1 then
    if DisplayConfig.MAX_DISPLAY_LENGTH < (intStr q.num).length then
      String.mk (sciStr DisplayConfig.SCIENTIFIC_PRECISION q)
    else String.mk (intStr q.num)
  else if 10 ^ 12 ≤ |q| ∨ (|q| < 1 / 10 ^ 6 ∧ q ≠ 0) then
    String.mk (sciStr DisplayConfig.SCIENTIFIC_PRECISION q)
  else if DisplayConfig.MAX_DISPLAY_LENGTH <
      (stripTrail (fixedStr DisplayConfig.DECIMAL_PLACES q)).length then
    String.mk (sciStr DisplayConfig.SCIENTIFIC_PRECISION q)
  else String.mk (stripTrail (fixedStr DisplayConfig.DECIMAL_PLACES q))

/-! ## The evaluator pipeline -/

/-- The pure-arithmetic string handed to `eval`: normalize, then rewrite
percent tokens when a `%` is present. -/
def pipelineExpr (s : String) : List Char :=
  let n := normalize_expression s.toList
  if n.contains '%' then transform_percent_expression n else n

/-- The numeric result of `eval` on the pipeline string, `none` on any
evaluation fault. -/
def pipeline (s : String) : Option ℚ := evalArith (pipelineExpr s)

/-- `ExpressionEvaluator.evaluate_expression` over the numeric restriction
of `eval`; `evaluate_expression_full` below also retains the string values
`eval` can produce. -/
def evaluate_expression (s : String) : String :=
  if s = "" then ""
  else
    match pipeline s with
    | some q => format_result q
    | none => "Error"

/-! ## Eval with Python string values

Python's `eval` is not restricted to arithmetic: an expression can
evaluate to a `str` — `eval` of two quote characters yields the empty
Python string — and the `isinstance(result, str)` branch of
`format_result` returns such a value verbatim.  The extended evaluator
below adds string-literal atoms and string concatenation to the
arithmetic grammar.  Every further behavior of `eval` (other string
operations, other value types) is modeled conservatively as a fault;
that only shrinks the set of inputs the model evaluates, and never
changes a value it does produce. -/

/-- The ASCII single-quote character. -/
def squote : Char := Char.ofNat 39

/-- The ASCII double-quote character. -/
def dquote : Char := Char.ofNat 34

/-- The ASCII backslash character. -/
def bslash : Char := Char.ofNat 92

/-- A Python value reachable by the modeled fragment of `eval`. -/
inductive PyVal where
  | num (q : ℚ)
  | str (s : List Char)
deriving DecidableEq

/-- Python `+`: numeric addition or string concatenation; a mixed pair
raises `TypeError`. -/
def pyAdd : PyVal → PyVal → Option PyVal
  | .num a, .num b => some (.num (a + b))
  | .str a, .str b => some (.str (a ++ b))
  | _, _ => none

/-- Python binary `-`: numbers only. -/
def pySub : PyVal → PyVal → Option PyVal
  | .num a, .num b => some (.num (a - b))
  | _, _ => none

/-- Python `*` restricted to numbers.  (String repetition `int * str` is
modeled as a fault: the model does not track Python's int/float
distinction, which decides whether repetition raises.) -/
def pyMul : PyVal → PyVal → Option PyVal
  | .num a, .num b => some (.num (a * b))
  | _, _ => none

/-- Python `/`: numbers only, `ZeroDivisionError` on a zero divisor. -/
def pyDiv : PyVal → PyVal → Option PyVal
  | .num a, .num b => if b = 0 then none else some (.num (a / b))
  | _, _ => none

/-- Unary minus: numbers only (on a string it raises `TypeError`). -/
def pyNeg : PyVal → Option PyVal
  | .num a => some (.num (-a))
  | .str _ => none

/-- Unary plus: numbers only (on a string it raises `TypeError`). -/
def pyPos : PyVal → Option PyVal
  | .num a => some (.num a)
  | .str _ => none

/-- A single-quoted or double-quoted Python string literal with a plain
body: no backslash (escape sequences are not modeled), no newline or
carriage return (a raw newline in a short literal is a `SyntaxError`),
and no NUL (a NUL anywhere in the source makes `eval` raise
`ValueError`).  Literals outside this fragment are modeled as faults.
Returns the body and the remaining input. -/
def parseStrLit (l : List Char) : Option (List Char × List Char) :=
  match l with
  | q :: rest =>
    if q = squote ∨ q = dquote then
      let body := rest.takeWhile fun c => c ≠ q
      match rest.dropWhile fun c => c ≠ q with
      | _ :: r2 =>
        if body.all fun c =>
            c ≠ bslash && c ≠ Char.ofNat 10 && c ≠ Char.ofNat 13 &&
              c ≠ Char.ofNat 0 then
          some (body, r2)
        else none
      | [] => none
    else none
  | [] => none

mutual

/-- expression := term (('+' | '-') term)*, over Python values. -/
def parseEV : Nat → List Char → Option (PyVal × List Char)
  | 0, _ => none
  | f + 1, l =>
    match parseTV f l with
    | some ar => parseETailV f ar.1 ar.2
    | none => none

def parseETailV : Nat → PyVal → List Char → Option (PyVal × List Char)
  | 0, _, _ => none
  | f + 1, a, l =>
    match l with
    | '+' :: r =>
      match parseTV f r with
      | some br =>
        match pyAdd a br.1 with
        | some v => parseETailV f v br.2
        | none => none
      | none => none
    | '-' :: r =>
      match parseTV f r with
      | some br =>
        match pySub a br.1 with
        | some v => parseETailV f v br.2
        | none => none
      | none => none
    | _ => some (a, l)

/-- term := factor (('*' | '/') factor)*, over Python values. -/
def parseTV : Nat → List Char → Option (PyVal × List Char)
  | 0, _ => none
  | f + 1, l =>
    match parseFV f l with
    | some ar => parseTTailV f ar.1 ar.2
    | none => none

def parseTTailV : Nat → PyVal → List Char → Option (PyVal × List Char)
  | 0, _, _ => none
  | f + 1, a, l =>
    match l with
    | '*' :: r =>
      match parseFV f r with
      | some br =>
        match pyMul a br.1 with
        | some v => parseTTailV f v br.2
        | none => none
      | none => none
    | '/' :: r =>
      match parseFV f r with
      | some br =>
        match pyDiv a br.1 with
        | some v => parseTTailV f v br.2
        | none => none
      | none => none
    | _ => some (a, l)

/-- factor := ('+' | '-')* (string literal | numeral | '(' expression ')'),
over Python values. -/
def parseFV : Nat → List Char → Option (PyVal × List Char)
  | 0, _ => none
  | f + 1, l =>
    match l with
    | '-' :: r =>
      match parseFV f r with
      | some br =>
        match pyNeg br.1 with
        | some v => some (v, br.2)
        | none => none
      | none => none
    | '+' :: r =>
      match parseFV f r with
      | some br =>
        match pyPos br.1 with
        | some v => some (v, br.2)
        | none => none
      | none => none
    | '(' :: r =>
      match parseEV f r with
      | some ar =>
        match ar.2 with
        | ')' :: r2 => some (ar.1, r2)
        | _ => none
      | none => none
    | _ =>
      match parseStrLit l with
      | some sr => some (.str sr.1, sr.2)
      | none => (parseNumLit l).map fun qr => (.num qr.1, qr.2)

end

/-- `eval` over Python values: the whole input must be consumed.  Agrees
with `evalArith` on arithmetic strings and additionally returns the
string values of the modeled fragment. -/
def evalPy (l : List Char) : Option PyVal :=
  match parseEV (3 * l.length + 3) l with
  | some vr => if vr.2.isEmpty then some vr.1 else none
  | _ => none

/-- The value of `eval` on the pipeline string, string results included. -/
def pipelineV (s : String) : Option PyVal := evalPy (pipelineExpr s)

/-- `ExpressionEvaluator.format_result` including the source's
`isinstance(result, str)` branch, which returns a string value of `eval`
verbatim. -/
def format_result_full : PyVal → String
  | .str l => String.mk l
  | .num q => format_result q

/-- `ExpressionEvaluator.evaluate_expression` over the value-level model:
unlike `evaluate_expression`, it retains the string values `eval` can
produce, e.g. `eval` of two quote characters yields the empty Python
string, which the `isinstance` passthrough then returns as the displayed
result. -/
def evaluate_expression_full (s : String) : String :=
  if s = "" then ""
  else
    match pipelineV s with
    | some v => format_result_full v
    | none => "Error"

/-! ## Basic lemmas

The Batteries rational operations are `@[irreducible]`, which blocks the
`decide` tactic's reduction (the kernel itself does not consult
reducibility attributes); restore the default so concrete evaluations of
the model compute. -/

attribute [local semireducible] Rat.mul Rat.add Rat.inv Rat.sub

theorem dChar_toNat {d : Nat} (h : d < 10) : (dChar d).toNat = 48 + d := by
  interval_cases d <;> decide

theorem dChar_isDigit {d : Nat} (h : d < 10) : (dChar d).isDigit = true := by
  interval_cases d <;> decide

theorem parseNat_go (l : List Char) (a : Nat) :
    l.foldl (fun a c => 10 * a + (c.toNat - 48)) a =
      a * 10 ^ l.length + parseNat l := by
  induction l generalizing a with
  | nil => simp [parseNat]
  | cons c cs ih =>
    rw [List.foldl_cons, ih]
    have h2 : parseNat (c :: cs) = (c.toNat - 48) * 10 ^ cs.length + parseNat cs := by
      rw [show parseNat (c :: cs) =
        cs.foldl (fun a c => 10 * a + (c.toNat - 48)) (10 * 0 + (c.toNat - 48)) from rfl, ih]
      ring
    rw [h2, List.length_cons]
    ring

theorem parseNat_reverse (l : List Char) : parseNat l.reverse = valLE l := by
  induction l with
  | nil => rfl
  | cons c cs ih =>
    simp only [List.reverse_cons, parseNat, List.foldl_append, List.foldl_cons,
      List.foldl_nil, valLE]
    rw [show (List.foldl (fun a c => 10 * a + (c.toNat - 48)) 0 cs.reverse) =
      parseNat cs.reverse from rfl, ih]
    ring

theorem valLE_natDigitsRev {f n : Nat} (h : n ≤ f) :
    valLE (natDigitsRev f n) = n := by
  induction f generalizing n with
  | zero =>
    have hn : n = 0 := Nat.le_zero.mp h
    subst hn; rfl
  | succ f ih =>
    match n with
    | 0 => rfl
    | n + 1 =>
      have hlt : (n + 1) / 10 < n + 1 := Nat.div_lt_self (Nat.succ_pos n) (by omega)
      have : valLE (natDigitsRev f ((n + 1) / 10)) = (n + 1) / 10 :=
        ih (by omega)
      simp only [natDigitsRev, valLE, this,
        dChar_toNat (Nat.mod_lt _ (by omega) : (n + 1) % 10 < 10)]
      omega

theorem parseNat_natStr (n : Nat) : parseNat (natStr n) = n := by
  by_cases h : n = 0
  · subst h; rfl
  · simp only [natStr, if_neg h, parseNat_reverse, valLE_natDigitsRev (le_refl n)]

theorem natDigitsRev_all_digits {f n : Nat} :
    ∀ c ∈ natDigitsRev f n, c.isDigit = true := by
  induction f generalizing n with
  | zero => simp [natDigitsRev]
  | succ f ih =>
    match n with
    | 0 => simp [natDigitsRev]
    | n + 1 =>
      intro c hc
      simp only [natDigitsRev, List.mem_cons] at hc
      rcases hc with h | h
      · subst h; exact dChar_isDigit (Nat.mod_lt _ (by omega))
      · exact ih _ h

theorem natStr_all_digits (n : Nat) : ∀ c ∈ natStr n, c.isDigit = true := by
  intro c hc
  by_cases h : n = 0
  · subst h
    have : natStr 0 = ['0'] := rfl
    rw [this, List.mem_singleton] at hc
    subst hc; decide
  · simp only [natStr, if_neg h, List.mem_reverse] at hc
    exact natDigitsRev_all_digits c hc

theorem natStr_ne_nil (n : Nat) : natStr n ≠ [] := by
  by_cases h : n = 0
  · subst h; simp [natStr]
  · simp only [natStr, if_neg h, ne_eq, List.reverse_eq_nil_iff]
    match n, h with
    | n + 1, _ => simp [natDigitsRev]

theorem natDigitsRev_length {f n k : Nat} (hf : n ≤ f) (h : n < 10 ^ k) :
    (natDigitsRev f n).length ≤ k := by
  induction f generalizing n k with
  | zero => interval_cases n; simp [natDigitsRev]
  | succ f ih =>
    match n with
    | 0 => simp [natDigitsRev]
    | n + 1 =>
      match k with
      | 0 => omega
      | k + 1 =>
        have h10 : (n + 1) / 10 < 10 ^ k := by
          rw [Nat.div_lt_iff_lt_mul (show (0:Nat) < 10 by omega)]
          calc n + 1 < 10 ^ (k + 1) := h
          _ = 10 ^ k * 10 := by ring
        have hfl : (n + 1) / 10 ≤ f := by
          have := Nat.div_lt_self (Nat.succ_pos n) (show 1 < 10 by omega)
          omega
        simpa [natDigitsRev] using ih hfl h10

theorem natStr_length_le {n k : Nat} (hk : 0 < k) (h : n < 10 ^ k) :
    (natStr n).length ≤ k := by
  by_cases h0 : n = 0
  · subst h0; simpa [natStr] using hk
  · simp only [natStr, if_neg h0, List.length_reverse]
    exact natDigitsRev_length (le_refl n) h

theorem resetDone_eq (s : CalculationState) :
    resetDone s = ⟨s.expression, false⟩ := by
  cases s with
  | mk e d => cases d <;> simp [resetDone]

theorem stringMk_ne_empty {l : List Char} (h : l ≠ []) : String.mk l ≠ "" :=
  fun he => h (congrArg String.data he)

theorem dropWhile_append_eq (p : Char → Bool) (l1 l2 : List Char) :
    (l1 ++ l2).dropWhile p =
      if (l1.dropWhile p).isEmpty then l2.dropWhile p
      else l1.dropWhile p ++ l2 := by
  induction l1 with
  | nil => simp
  | cons c cs ih =>
    by_cases h : p c <;> simp [List.dropWhile_cons, h, ih]

theorem intStr_ne_nil (n : Int) : intStr n ≠ [] := by
  unfold intStr; split
  · simp
  · exact natStr_ne_nil _

theorem dot_not_mem_natStr (n : Nat) : '.' ∉ natStr n := by
  intro h
  have := natStr_all_digits n '.' h
  exact absurd this (by decide)

theorem dot_not_mem_intStr (n : Int) : '.' ∉ intStr n := by
  unfold intStr; split
  · intro h
    rcases List.mem_cons.mp h with h | h
    · exact absurd h (by decide)
    · exact dot_not_mem_natStr _ h
  · exact dot_not_mem_natStr _

theorem sciStr_ne_nil (p : Nat) (q : ℚ) : sciStr p q ≠ [] := by
  unfold sciStr
  split
  · simp
  · intro h
    have := congrArg List.length h
    simp [List.length_append] at this

/-- Stripping trailing zeros and dots from `sign ++ digits ++ '.' ++ digits`
cannot give the empty string: the integer-part digits survive. -/
theorem stripTrail_ne_nil (S A B : List Char) (hA : A ≠ [])
    (hAd : ∀ c ∈ A, c.isDigit = true) (hBd : ∀ c ∈ B, c.isDigit = true) :
    stripTrail (S ++ A ++ '.' :: B) ≠ [] := by
  have hrev : (S ++ A ++ '.' :: B).reverse =
      B.reverse ++ '.' :: (A.reverse ++ S.reverse) := by
    simp
  have hAr : A.reverse ≠ [] := by simpa using hA
  obtain ⟨a0, ar, ha⟩ := List.exists_cons_of_ne_nil hAr
  have ha0A : a0 ∈ A := by
    have : a0 ∈ A.reverse := by rw [ha]; exact List.mem_cons_self _ _
    simpa using this
  have ha0d : a0.isDigit = true := hAd a0 ha0A
  have ha0ne : a0 ≠ '.' := by
    intro hh; subst hh; exact absurd ha0d (by decide)
  unfold stripTrail
  rw [hrev, dropWhile_append_eq]
  split
  · -- the fractional digits are all stripped; the dot falls, the last
    -- integer digit stops the second strip
    rw [List.dropWhile_cons_of_neg (by decide),
      List.dropWhile_cons_of_pos (by decide), ha, List.cons_append,
      List.dropWhile_cons_of_neg (by simpa using ha0ne)]
    simp
  · -- some fractional digit survives; it is not a dot, so nothing else falls
    rename_i hne
    have hne' : B.reverse.dropWhile (fun c => c = '0') ≠ [] := by
      intro hnil
      rw [hnil] at hne
      simp at hne
    obtain ⟨b0, br, hb⟩ := List.exists_cons_of_ne_nil hne'
    have hb0 : b0 ∈ B := by
      have h1 : b0 ∈ B.reverse.dropWhile (fun c => c = '0') := by
        rw [hb]; exact List.mem_cons_self _ _
      have h2 := (List.dropWhile_sublist (fun c => decide (c = '0'))).subset h1
      simpa using h2
    have hb0d := hBd b0 hb0
    have hb0ne : b0 ≠ '.' := by
      intro hh; subst hh; exact absurd hb0d (by decide)
    rw [hb, List.cons_append, List.dropWhile_cons_of_neg (by simpa using hb0ne)]
    simp

theorem padZeros_all_digits (k : Nat) (l : List Char)
    (h : ∀ c ∈ l, c.isDigit = true) : ∀ c ∈ padZeros k l, c.isDigit = true := by
  intro c hc
  rcases List.mem_append.mp hc with hc | hc
  · have := List.eq_of_mem_replicate hc
    subst this; decide
  · exact h c hc

theorem fixedStr_shape (q : ℚ) :
    ∃ S A B, fixedStr DisplayConfig.DECIMAL_PLACES q = S ++ A ++ '.' :: B ∧
      A ≠ [] ∧ (∀ c ∈ A, c.isDigit = true) ∧ ∀ c ∈ B, c.isDigit = true := by
  refine ⟨if q < 0 then ['-'] else [],
    natStr ((roundHalfEven (|q| * 10 ^ DisplayConfig.DECIMAL_PLACES)).toNat /
      10 ^ DisplayConfig.DECIMAL_PLACES),
    padZeros DisplayConfig.DECIMAL_PLACES
      (natStr ((roundHalfEven (|q| * 10 ^ DisplayConfig.DECIMAL_PLACES)).toNat %
        10 ^ DisplayConfig.DECIMAL_PLACES)),
    ?_, natStr_ne_nil _, natStr_all_digits _,
    padZeros_all_digits _ _ (natStr_all_digits _)⟩
  show fixedStr 10 q = _
  unfold fixedStr
  simp [DisplayConfig.DECIMAL_PLACES]

theorem format_result_ne_empty (q : ℚ) : format_result q ≠ "" := by
  unfold format_result
  split
  · split
    · exact stringMk_ne_empty (sciStr_ne_nil _ _)
    · exact stringMk_ne_empty (intStr_ne_nil _)
  · split
    · exact stringMk_ne_empty (sciStr_ne_nil _ _)
    · split
      · exact stringMk_ne_empty (sciStr_ne_nil _ _)
      · obtain ⟨S, A, B, hq, hA, hAd, hBd⟩ := fixedStr_shape q
        rw [hq]
        exact stringMk_ne_empty (stripTrail_ne_nil S A B hA hAd hBd)

theorem lastParenIdx_eq_none {l : List Char} (h : '(' ∉ l) :
    lastParenIdx l = none := by
  induction l with
  | nil => rfl
  | cons c cs ih =>
    simp only [List.mem_cons, not_or] at h
    unfold lastParenIdx
    rw [ih h.2]
    simp [Ne.symm h.1]

/-! ## Theorems for the claims -/

/-- **C1** (code bug).  The spec claims `evaluate("100+10%") = "110"`,
`evaluate("50-10%") = "45"`, `evaluate("20%") = "0.2"`, with the percent
token contextually rewritten to `base * value / 100` after `+`/`-`.  The
addition and bare cases hold, but the subtraction case returns `"Error"`:
the token regex of `_transform_percent_expression` absorbs the binary `-`
into the following number, so `"50-10%"` tokenizes as `['50', '-10%']`,
no preceding operator is found, and the rewritten string `50(-10/100)` is
not valid arithmetic. -/
theorem c1_percent_minus_is_error :
    evaluate_expression "100+10%" = "110" ∧
    evaluate_expression "20%" = "0.2" ∧
    evaluate_expression "50-10%" = "Error" ∧
    findallTokens 7 "50-10%".toList = ["50".toList, "-10%".toList] ∧
    String.mk (pipelineExpr "50-10%") = "50(-10/100)" :=
  ⟨by decide, by decide, by decide, by decide, by decide⟩

/-- **C2** (code bug).  The spec claims a dangling trailing operator —
including the display glyphs `×`, `÷` — is discarded at evaluation time and
never produces `"Error"`.  `normalize_expression` tests the trailing
character against the ASCII set `('+','-','*','/','.')` *before* mapping
`×→*`, `÷→/`, so a trailing glyph survives normalization and evaluation
fails: `evaluate("5×") = "Error"` although `evaluate("5") = "5"`, while the
ASCII case `evaluate("5+") = "5"` behaves as claimed. -/
theorem c2_trailing_glyph_not_stripped :
    evaluate_expression "5+" = "5" ∧
    evaluate_expression "5" = "5" ∧
    String.mk (normalize_expression "5×".toList) = "5*" ∧
    evaluate_expression "5×" = "Error" :=
  ⟨by decide, by decide, by decide, by decide⟩

/-- **C3** (counterexample).  The claim that a rejected edit leaves the
state exactly as it was fails: `clear_all` on the reachable state
`(expression = "", calculation_done = true)` (the state after an `"Error"`
evaluation) returns `changed = false` yet clears the flag. -/
theorem c3_rejected_edit_mutates_flag :
    (applyOp Op.clearAll ⟨"", true⟩).changed = false ∧
    (applyOp Op.clearAll ⟨"", true⟩).state.calculation_done = false ∧
    (⟨"", true⟩ : CalculationState).calculation_done = true := by
  refine ⟨by decide, by decide, by decide⟩

/-- **C3** (amended).  For every one of the seven editing operations and
every starting state, a `changed = false` result leaves the stored
expression untouched, and leaves `calculation_done` clear: `add_digit`,
`add_decimal_point` and `clear_last_input` can only reject with the flag
already clear, while `add_operator`, `toggle_sign`, `add_percent` and
`clear_all` clear a set flag *before* validating, so a rejected call still
resets it. -/
theorem c3_amended_rejected_edit_atomicity (o : Op) (s : CalculationState)
    (h : (applyOp o s).changed = false) :
    (applyOp o s).state.expression = s.expression ∧
    (applyOp o s).state.calculation_done = false := by
  revert h
  cases o <;>
    simp only [applyOp, add_digit, add_operator, add_decimal_point, toggle_sign,
      add_percent, clear_last_input, clear_all, retNoChange, retChange,
      retInitial, resetDone_eq] <;>
    (repeat' split) <;> simp_all

theorem c3_amended_witness :
    (applyOp Op.clearAll ⟨"", false⟩).state.expression = "" ∧
    (applyOp Op.clearAll ⟨"", false⟩).state.calculation_done = false :=
  c3_amended_rejected_edit_atomicity Op.clearAll ⟨"", false⟩ (by decide)

/-- **C4** (counterexample).  The claim that `add_digit('0')` on an empty
editing-state expression returns `changed = true` with the `"0"` sentinel
is false: `can_append_digit` rejects a lone `'0'` on the empty expression,
so the call returns `changed = false`, and the display is the (empty)
current expression, not the sentinel. -/
theorem c4_leading_zero_guard_counterexample :
    (add_digit ⟨"", false⟩ '0').changed = false ∧
    (add_digit ⟨"", false⟩ '0').display = "" ∧
    (add_digit ⟨"", false⟩ '0').display ≠ CalculatorConfig.INITIAL_DISPLAY := by
  refine ⟨by decide, by decide, by decide⟩

/-- **C4** (amended).  `add_digit('0')` on the empty expression in editing
state is a rejected edit: it returns `changed = false` with the stored
(empty) expression as the display, and both the expression and the flag are
unchanged. -/
theorem c4_leading_zero_guard_amended :
    add_digit ⟨"", false⟩ '0' = ⟨false, "", ⟨"", false⟩⟩ := by decide

/-- **C5** (confirmed).  `evaluate("")` is the empty string,
`evaluate("5÷0")` is the literal `"Error"`, and in general a non-empty
expression evaluates to `"Error"` exactly when the normalized/transformed
arithmetic fails (`pipeline` is `none`), and to the formatted numeric
result otherwise — faults never escape. -/
theorem c5_evaluation_faults :
    evaluate_expression "" = "" ∧
    evaluate_expression "5÷0" = "Error" ∧
    (∀ s : String, s ≠ "" → pipeline s = none → evaluate_expression s = "Error") ∧
    (∀ s : String, ∀ q : ℚ, s ≠ "" → pipeline s = some q →
      evaluate_expression s = format_result q) := by
  refine ⟨by decide, by decide, ?_, ?_⟩
  · intro s hs hp
    unfold evaluate_expression
    rw [if_neg hs, hp]
  · intro s q hs hp
    unfold evaluate_expression
    rw [if_neg hs, hp]

theorem c5_witness :
    evaluate_expression "5÷0" = "Error" ∧ evaluate_expression "5" = format_result 5 :=
  ⟨c5_evaluation_faults.2.2.1 "5÷0" (by decide) (by decide),
   c5_evaluation_faults.2.2.2 "5" 5 (by decide) (by decide)⟩

/-- **C7** (confirmed).  An integral result whose decimal rendering exceeds
`MAX_DISPLAY_LENGTH = 12` characters formats in scientific notation with
`SCIENTIFIC_PRECISION = 6` mantissa digits; shorter integral results format
as the plain integer string, which contains no decimal point; and
`evaluate("0.1+0.2") = "0.3"` (fixed point, trailing zeros and the bare
dot stripped), with `10^12` as a concrete overflow example rendering as
`"1.000000e+12"`. -/
theorem c7_result_formatting :
    (∀ q : ℚ, q.den = 1 → DisplayConfig.MAX_DISPLAY_LENGTH < (intStr q.num).length →
      format_result q = String.mk (sciStr DisplayConfig.SCIENTIFIC_PRECISION q)) ∧
    (∀ q : ℚ, q.den = 1 → (intStr q.num).length ≤ DisplayConfig.MAX_DISPLAY_LENGTH →
      format_result q = String.mk (intStr q.num) ∧ '.' ∉ intStr q.num) ∧
    evaluate_expression "0.1+0.2" = "0.3" ∧
    format_result (10 ^ 12) = "1.000000e+12" := by
  refine ⟨?_, ?_, by decide, by decide⟩
  · intro q h1 h2
    unfold format_result
    rw [if_pos h1, if_pos h2]
  · intro q h1 h2
    refine ⟨?_, dot_not_mem_intStr _⟩
    unfold format_result
    rw [if_pos h1, if_neg (Nat.not_lt.mpr h2)]

theorem c7_witness :
    format_result (10 ^ 12) = String.mk (sciStr 6 (10 ^ 12)) ∧
    format_result 5 = String.mk (intStr (5 : ℚ).num) :=
  ⟨c7_result_formatting.1 (10 ^ 12) (by decide) (by decide),
   (c7_result_formatting.2.1 5 (by decide) (by decide)).1⟩

/-- **C8** (confirmed).  Backspace on the parenthesized negative `"(-5)"`
in editing state removes the sign wrapper, leaving `"5"` with
`changed = true`; and on any expression of length `> 1` that ends in `')'`
but contains no `'('`, the backward scan finds no matching paren and the
edit is rejected with the state untouched. -/
theorem c8_backspace_paren :
    clear_last_input ⟨"(-5)", false⟩ = ⟨true, "5", ⟨"5", false⟩⟩ ∧
    ∀ e : String, 1 < e.toList.length → e.toList.getLastD ' ' = ')' →
      '(' ∉ e.toList →
      clear_last_input ⟨e, false⟩ = ⟨false, e, ⟨e, false⟩⟩ := by
  refine ⟨by decide, ?_⟩
  intro e h1 h2 h3
  unfold clear_last_input
  rw [if_neg (show ¬((⟨e, false⟩ : CalculationState).calculation_done = true) from
      Bool.false_ne_true),
    if_neg (show ¬((⟨e, false⟩ : CalculationState).expression.toList.length ≤ 1) from
      Nat.not_le.mpr h1),
    if_pos (show (⟨e, false⟩ : CalculationState).expression.toList.getLastD ' ' = ')'
      from h2),
    lastParenIdx_eq_none h3]
  rfl

theorem c8_witness :
    clear_last_input ⟨"12)", false⟩ = ⟨false, "12)", ⟨"12)", false⟩⟩ :=
  c8_backspace_paren.2 "12)" (by decide) (by decide) (by decide)

/-- **C9** (confirmed, implicit).  Every editing operation returns a
display string that is either exactly the `INITIAL_DISPLAY` sentinel `"0"`
or exactly the stored expression as it stands when the operation returns:
every return path goes through `_return_change_result`. -/
theorem c9_display_invariant (o : Op) (s : CalculationState) :
    (applyOp o s).display = CalculatorConfig.INITIAL_DISPLAY ∨
    (applyOp o s).display = (applyOp o s).state.expression := by
  cases o <;>
    simp only [applyOp, add_digit, add_operator, add_decimal_point, toggle_sign,
      add_percent, clear_last_input, clear_all, retNoChange, retChange,
      retInitial] <;>
    (repeat' split) <;> simp

/-- **C10** counterexample.  The claim says only the literally empty input
yields the empty result, but the two-character input of two single-quote
characters also does: the normalizer strips nothing (a quote is not in the
trailing set), `eval` returns the empty Python string, and the
`isinstance(result, str)` branch of `format_result` returns it verbatim. -/
theorem c10_empty_result_counterexample :
    evaluate_expression_full (String.mk [squote, squote]) = "" ∧
    String.mk [squote, squote] ≠ "" := by
  constructor <;> decide

/-- **C10** (corrected, implicit).  Each single strippable character
`"+"`, `"-"`, `"*"`, `"/"`, `"."` normalizes to the empty arithmetic
string, which `eval` rejects, so `evaluate` returns `"Error"`, and the
empty input yields the empty result — but the empty result is not
exclusive to the empty input: a non-empty input yields the empty result
exactly when `eval` produces the empty Python string, which the
`isinstance` passthrough of `format_result` displays verbatim. -/
theorem c10_amended_single_strippable_char :
    evaluate_expression_full "+" = "Error" ∧
    evaluate_expression_full "-" = "Error" ∧
    evaluate_expression_full "*" = "Error" ∧
    evaluate_expression_full "/" = "Error" ∧
    evaluate_expression_full "." = "Error" ∧
    evaluate_expression_full "" = "" ∧
    ∀ s : String, s ≠ "" → (evaluate_expression_full s = "" ↔
      pipelineV s = some (PyVal.str [])) := by
  refine ⟨by decide, by decide, by decide, by decide, by decide, by decide, ?_⟩
  intro s hs
  unfold evaluate_expression_full
  rw [if_neg hs]
  constructor
  · intro h
    match hp : pipelineV s with
    | some (.num q) =>
        rw [hp] at h
        exact absurd h (format_result_ne_empty q)
    | some (.str l) =>
        rw [hp] at h
        cases l with
        | nil => rfl
        | cons c t => exact absurd h (stringMk_ne_empty (List.cons_ne_nil c t))
    | none =>
        rw [hp] at h
        exact absurd h (by decide)
  · intro h
    rw [h]
    rfl

theorem c10_amended_witness :
    evaluate_expression_full (String.mk [squote, squote]) = "" ↔
      pipelineV (String.mk [squote, squote]) = some (PyVal.str []) :=
  c10_amended_single_strippable_char.2.2.2.2.2.2
    (String.mk [squote, squote]) (by decide)

/-! ## Structure of the trailing-number alternatives

These lemmas characterize `isBare`, `isParenNeg`, `isParenPos` and locate
the leftmost match of the `toggle_sign` regex on a string of the form
`p ++ t`. -/

theorem takeWhile_all {p : Char → Bool} {a : List Char}
    (h : ∀ c ∈ a, p c = true) :
    a.takeWhile p = a ∧ a.dropWhile p = [] := by
  induction a with
  | nil => simp
  | cons c cs ih =>
    have hc := h c (List.mem_cons_self _ _)
    have ih' := ih fun x hx => h x (List.mem_cons_of_mem _ hx)
    simp [List.takeWhile_cons, List.dropWhile_cons, hc, ih'.1, ih'.2]

theorem takeWhile_all_append {p : Char → Bool} {a : List Char} {x : Char}
    {r : List Char} (h : ∀ c ∈ a, p c = true) (hx : p x = false) :
    (a ++ x :: r).takeWhile p = a ∧ (a ++ x :: r).dropWhile p = x :: r := by
  induction a with
  | nil => simp [List.takeWhile_cons, List.dropWhile_cons, hx]
  | cons c cs ih =>
    have hc := h c (List.mem_cons_self _ _)
    have ih' := ih fun y hy => h y (List.mem_cons_of_mem _ hy)
    simp [List.takeWhile_cons, List.dropWhile_cons, hc, ih'.1, ih'.2]

theorem isBare_of_digits {a : List Char} (ha : a ≠ [])
    (hd : ∀ c ∈ a, c.isDigit = true) : isBare a = true := by
  obtain ⟨tw, dw⟩ := takeWhile_all hd
  unfold isBare
  rw [tw, dw]
  simp [ha]

theorem isBare_append_dot {a b : List Char} (ha : a ≠ []) (hb : b ≠ [])
    (hda : ∀ c ∈ a, c.isDigit = true) (hdb : ∀ c ∈ b, c.isDigit = true) :
    isBare (a ++ '.' :: b) = true := by
  obtain ⟨tw, dw⟩ :=
    takeWhile_all_append hda (show Char.isDigit '.' = false by decide)
  unfold isBare
  rw [tw, dw]
  have h1 : a.isEmpty = false := by simp [ha]
  have h2 : b.isEmpty = false := by simp [hb]
  have h3 : b.all Char.isDigit = true := List.all_eq_true.mpr hdb
  simp [h1, h2, h3]

/-- Every character of a bare-number match is a digit or the dot. -/
theorem isBare_chars {s : List Char} (h : isBare s = true) :
    ∀ c ∈ s, c.isDigit = true ∨ c = '.' := by
  have hsplit := List.takeWhile_append_dropWhile Char.isDigit (l := s)
  intro c hc
  rw [← hsplit] at hc
  rcases List.mem_append.mp hc with hc | hc
  · exact Or.inl (List.mem_takeWhile_imp hc)
  · unfold isBare at h
    rcases hr : s.dropWhile Char.isDigit with _ | ⟨c0, b⟩
    · rw [hr] at hc; simp at hc
    · rw [hr] at hc h
      simp only [List.isEmpty_cons, List.headD_cons, List.tail_cons,
        Bool.and_eq_true, Bool.or_eq_true, List.all_eq_true,
        decide_eq_true_eq, Bool.not_eq_true', List.isEmpty_eq_false] at h
      rcases h.2 with h2 | ⟨⟨hdot, _⟩, hall⟩
      · exact absurd h2 (by simp)
      · rcases List.mem_cons.mp hc with hc | hc
        · exact Or.inr (hc.trans hdot)
        · exact Or.inl (hall c hc)

theorem isBare_ne_nil {s : List Char} (h : isBare s = true) : s ≠ [] := by
  intro he
  subst he
  simp [isBare] at h

/-- A bare-number match ends in a digit. -/
theorem isBare_getLast {s : List Char} (h : isBare s = true) :
    ∃ c, s.getLast? = some c ∧ c.isDigit = true := by
  have hsplit := List.takeWhile_append_dropWhile Char.isDigit (l := s)
  unfold isBare at h
  simp only [Bool.and_eq_true, Bool.not_eq_true', List.isEmpty_eq_false] at h
  rcases hr : s.dropWhile Char.isDigit with _ | ⟨c0, b⟩
  · rw [hr, List.append_nil] at hsplit
    obtain ⟨c, hc⟩ := Option.isSome_iff_exists.mp (List.getLast?_isSome.mpr
      (show s ≠ [] from hsplit ▸ h.1))
    refine ⟨c, hc, ?_⟩
    have hmem : c ∈ s := List.mem_of_getLast?_eq_some hc
    rw [← hsplit] at hmem
    exact List.mem_takeWhile_imp hmem
  · rw [hr] at h hsplit
    simp only [List.isEmpty_cons, List.headD_cons, List.tail_cons,
      Bool.and_eq_true, Bool.or_eq_true, List.all_eq_true,
      decide_eq_true_eq, Bool.not_eq_true', List.isEmpty_eq_false] at h
    rcases h.2 with h2 | ⟨⟨_, hb⟩, hall⟩
    · exact absurd h2 (by simp)
    · obtain ⟨c, hc⟩ := Option.isSome_iff_exists.mp (List.getLast?_isSome.mpr hb)
      refine ⟨c, ?_, hall c (List.mem_of_getLast?_eq_some hc)⟩
      rw [← hsplit, List.getLast?_append]
      have : (c0 :: b).getLast? = some c := by
        rw [show ((c0 :: b : List Char)) = [c0] ++ b from rfl, List.getLast?_append,
          hc]
        rfl
      rw [this]
      rfl

theorem isParenNeg_iff (s : List Char) :
    isParenNeg s = true ↔
      ∃ m, isBare m = true ∧ s = '(' :: '-' :: m ++ [')'] := by
  constructor
  · intro h
    rcases s with _ | ⟨c1, s1⟩
    · simp [isParenNeg] at h
    rcases s1 with _ | ⟨c2, rest⟩
    · simp [isParenNeg] at h
    simp only [isParenNeg, List.headD_cons, List.tail_cons, Bool.and_eq_true,
      beq_iff_eq, decide_eq_true_eq] at h
    obtain ⟨⟨⟨h1, h2⟩, h3⟩, h4⟩ := h
    subst h1; subst h2
    have hrest : rest ≠ [] := by
      rintro rfl; simp at h3
    refine ⟨rest.dropLast, h4, ?_⟩
    have hgl : rest.getLast hrest = ')' := by
      have := List.getLast?_eq_getLast rest hrest
      rw [this] at h3
      exact Option.some_injective _ h3
    have hre : rest = rest.dropLast ++ [')'] := by
      conv_lhs => rw [← List.dropLast_concat_getLast hrest, hgl]
    conv_lhs => rw [hre]
    simp
  · rintro ⟨m, hm, rfl⟩
    simp [isParenNeg, List.getLast?_concat, List.dropLast_concat, hm]

theorem isParenPos_iff (s : List Char) :
    isParenPos s = true ↔ ∃ m, isBare m = true ∧ s = '(' :: m ++ [')'] := by
  constructor
  · intro h
    rcases s with _ | ⟨c1, s1⟩
    · simp [isParenPos] at h
    simp only [isParenPos, List.headD_cons, List.tail_cons, Bool.and_eq_true,
      beq_iff_eq, decide_eq_true_eq] at h
    obtain ⟨⟨h1, h3⟩, h4⟩ := h
    subst h1
    have hrest : s1 ≠ [] := by
      rintro rfl; simp at h3
    refine ⟨s1.dropLast, h4, ?_⟩
    have hgl : s1.getLast hrest = ')' := by
      have := List.getLast?_eq_getLast s1 hrest
      rw [this] at h3
      exact Option.some_injective _ h3
    have hre : s1 = s1.dropLast ++ [')'] := by
      conv_lhs => rw [← List.dropLast_concat_getLast hrest, hgl]
    conv_lhs => rw [hre]
    simp
  · rintro ⟨m, hm, rfl⟩
    simp [isParenPos, List.getLast?_concat, List.dropLast_concat, hm]

theorem isNumToken_ne_nil {t : List Char} (h : isNumToken t = true) : t ≠ [] := by
  rintro rfl
  simp [isNumToken, isBare, isParenNeg, isParenPos] at h

theorem paren_getLast {s : List Char}
    (h : isParenNeg s = true ∨ isParenPos s = true) : s.getLast? = some ')' := by
  rcases h with h | h
  · obtain ⟨m, _, rfl⟩ := (isParenNeg_iff s).mp h
    exact List.getLast?_concat _
  · obtain ⟨m, _, rfl⟩ := (isParenPos_iff s).mp h
    exact List.getLast?_concat _

theorem paren_head_mem {s : List Char}
    (h : isParenNeg s = true ∨ isParenPos s = true) : '(' ∈ s := by
  rcases h with h | h
  · obtain ⟨m, _, rfl⟩ := (isParenNeg_iff s).mp h
    simp
  · obtain ⟨m, _, rfl⟩ := (isParenPos_iff s).mp h
    simp

theorem paren_tail_no_lparen {s : List Char}
    (h : isParenNeg s = true ∨ isParenPos s = true) : '(' ∉ s.tail := by
  rcases h with h | h
  · obtain ⟨m, hm, rfl⟩ := (isParenNeg_iff s).mp h
    intro hmem
    simp only [List.cons_append, List.tail_cons, List.mem_append, List.mem_cons,
      List.not_mem_nil, or_false] at hmem
    rcases hmem with h1 | h1 | h1
    · exact absurd h1 (by decide)
    · rcases isBare_chars hm '(' h1 with h2 | h2 <;> simp at h2
    · exact absurd h1 (by decide)
  · obtain ⟨m, hm, rfl⟩ := (isParenPos_iff s).mp h
    intro hmem
    simp only [List.cons_append, List.tail_cons, List.mem_append, List.mem_cons,
      List.not_mem_nil, or_false] at hmem
    rcases hmem with h1 | h1
    · rcases isBare_chars hm '(' h1 with h2 | h2 <;> simp at h2
    · exact absurd h1 (by decide)

/-- If `w` is nonempty and its last character is neither a digit nor a dot,
the suffix `w ++ t` of a longer string is never itself a full match of the
trailing-number pattern, whenever `t` is one. -/
theorem notNumToken_append (w t : List Char) (hw : w ≠ [])
    (hwl : ∀ c, w.getLast? = some c → c.isDigit = false ∧ c ≠ '.')
    (ht : isNumToken t = true) : isNumToken (w ++ t) = false := by
  by_contra hne
  have hT : isNumToken (w ++ t) = true := by
    cases hb : isNumToken (w ++ t)
    · exact absurd hb hne
    · rfl
  obtain ⟨cw, hcw⟩ := Option.isSome_iff_exists.mp (List.getLast?_isSome.mpr hw)
  obtain ⟨hcw1, hcw2⟩ := hwl cw hcw
  have hcwmem : cw ∈ w ++ t :=
    List.mem_append_left _ (List.mem_of_getLast?_eq_some hcw)
  simp only [isNumToken, Bool.or_eq_true] at hT ht
  have main : (isParenNeg (w ++ t) = true ∨ isParenPos (w ++ t) = true) → False := by
    intro hT2
    have hgl := paren_getLast hT2
    have htail := paren_tail_no_lparen hT2
    have tparen : (isParenNeg t = true ∨ isParenPos t = true) → False := by
      intro htp
      have hthead : '(' ∈ t := paren_head_mem htp
      rcases w with _ | ⟨cw0, w'⟩
      · exact hw rfl
      apply htail
      simp only [List.cons_append, List.tail_cons]
      exact List.mem_append_right _ hthead
    rcases ht with (htb | htn) | htp
    · obtain ⟨ct, hct, hctd⟩ := isBare_getLast htb
      have hwt : (w ++ t).getLast? = some ct := by
        rw [List.getLast?_append, hct]; rfl
      rw [hgl] at hwt
      have : ')' = ct := Option.some_injective _ hwt
      rw [← this] at hctd
      exact absurd hctd (by decide)
    · exact tparen (Or.inl htn)
    · exact tparen (Or.inr htp)
  rcases hT with (hTb | hTn) | hTp
  · rcases isBare_chars hTb cw hcwmem with h | h
    · rw [h] at hcw1; simp at hcw1
    · exact hcw2 h
  · exact main (Or.inl hTn)
  · exact main (Or.inr hTp)

/-- The leftmost trailing-number match of `p ++ t` is exactly `(p, t)` when
`t` is a full match and `p` does not end in a digit or a dot. -/
theorem trailingSearch_append (p t : List Char)
    (hp : ∀ c, p.getLast? = some c → c.isDigit = false ∧ c ≠ '.')
    (ht : isNumToken t = true) :
    trailingSearch (p ++ t) = some (p, t) := by
  induction p with
  | nil =>
    obtain ⟨c, rest, rfl⟩ := List.exists_cons_of_ne_nil (isNumToken_ne_nil ht)
    simp only [List.nil_append]
    unfold trailingSearch
    rw [if_pos ht]
  | cons c p' ih =>
    have hnot : isNumToken ((c :: p') ++ t) = false :=
      notNumToken_append (c :: p') t (List.cons_ne_nil _ _) hp ht
    have hp' : ∀ c', p'.getLast? = some c' → c'.isDigit = false ∧ c' ≠ '.' := by
      intro c' hc'
      apply hp
      rcases p' with _ | ⟨x, xs⟩
      · simp at hc'
      · rw [List.getLast?_cons_cons]
        exact hc'
    have hnot' : isNumToken (c :: (p' ++ t)) = false := hnot
    rw [show ((c :: p') ++ t) = c :: (p' ++ t) from rfl]
    unfold trailingSearch
    rw [if_neg (by simp [hnot']), ih hp']
    rfl

/-! ## Round trip between `format_number` and `normalize_number` -/

theorem parseNat_cons_zero (l : List Char) : parseNat ('0' :: l) = parseNat l := rfl

theorem parseNat_padZeros (k : Nat) (A : List Char) :
    parseNat (padZeros k A) = parseNat A := by
  unfold padZeros
  generalize k - A.length = j
  induction j with
  | zero => rfl
  | succ j ih => rw [List.replicate_succ, List.cons_append, parseNat_cons_zero, ih]

theorem padZeros_length {k : Nat} {A : List Char} (h : A.length ≤ k) :
    (padZeros k A).length = k := by
  simp only [padZeros, List.length_append, List.length_replicate]
  omega

theorem padZeros_ne_nil {k : Nat} {A : List Char} (h : A ≠ []) :
    padZeros k A ≠ [] := by
  simp [padZeros, h]

theorem parseUnsigned_digits {a : List Char} (ha : a ≠ [])
    (hd : ∀ c ∈ a, c.isDigit = true) :
    parseUnsigned a = some ((parseNat a : ℚ)) := by
  obtain ⟨tw, dw⟩ := takeWhile_all hd
  unfold parseUnsigned
  rw [tw, dw, if_neg (by simp [ha])]

theorem parseUnsigned_append_dot {a b : List Char} (ha : a ≠ []) (hb : b ≠ [])
    (hda : ∀ c ∈ a, c.isDigit = true) (hdb : ∀ c ∈ b, c.isDigit = true) :
    parseUnsigned (a ++ '.' :: b) =
      some ((parseNat a : ℚ) + (parseNat b : ℚ) / 10 ^ b.length) := by
  obtain ⟨tw, dw⟩ :=
    takeWhile_all_append hda (show Char.isDigit '.' = false by decide)
  unfold parseUnsigned
  rw [tw, dw, if_neg (by simp [ha])]
  simp [hb, List.all_eq_true.mpr hdb]

theorem stripParens_no_parens {l : List Char}
    (h : ∀ c ∈ l, c ≠ '(' ∧ c ≠ ')') : stripParens l = l := by
  unfold stripParens
  have h1 : l.dropWhile (fun c => c = '(' || c = ')') = l := by
    rcases l with _ | ⟨c, rest⟩
    · rfl
    · rw [List.dropWhile_cons_of_neg]
      have := h c (List.mem_cons_self _ _)
      simp [this.1, this.2]
  rw [h1]
  have h2 : l.reverse.dropWhile (fun c => c = '(' || c = ')') = l.reverse := by
    rcases hr : l.reverse with _ | ⟨c, rest⟩
    · rfl
    · rw [List.dropWhile_cons_of_neg]
      have hc : c ∈ l := by
        have : c ∈ l.reverse := by rw [hr]; exact List.mem_cons_self _ _
        simpa using this
      have := h c hc
      simp [this.1, this.2]
  rw [h2, List.reverse_reverse]

theorem stripParens_wrap {m : List Char} (hm : m ≠ [])
    (h : ∀ c ∈ m, c ≠ '(' ∧ c ≠ ')') :
    stripParens (('(' :: m) ++ [')']) = m := by
  unfold stripParens
  obtain ⟨c0, m', rfl⟩ := List.exists_cons_of_ne_nil hm
  have hc0 := h c0 (List.mem_cons_self _ _)
  have step1 : (('(' :: c0 :: m') ++ [')']).dropWhile
      (fun c => c = '(' || c = ')') = (c0 :: m') ++ [')'] := by
    rw [List.cons_append, List.dropWhile_cons_of_pos (by simp),
      List.cons_append, List.dropWhile_cons_of_neg (by simp [hc0.1, hc0.2])]
  rw [step1]
  have hrev : ((c0 :: m') ++ [')']).reverse = ')' :: (c0 :: m').reverse := by
    simp
  rw [hrev, List.dropWhile_cons_of_pos (by simp)]
  obtain ⟨cl, rest, hr⟩ :
      ∃ cl rest, (c0 :: m').reverse = cl :: rest :=
    List.exists_cons_of_ne_nil (by simp)
  have hclmem : cl ∈ c0 :: m' := by
    have hmm : cl ∈ (c0 :: m').reverse := by rw [hr]; exact List.mem_cons_self _ _
    exact List.mem_reverse.mp hmm
  have hcl := h cl hclmem
  rw [hr, List.dropWhile_cons_of_neg (by simp [hcl.1, hcl.2]), ← hr,
    List.reverse_reverse]

/-- Any divisor of a power of ten divides the power of ten with its own
exponent (strong induction, peeling off `gcd` with `10`). -/
theorem dvd_ten_pow_self : ∀ d : Nat, 0 < d → (∃ j, d ∣ 10 ^ j) → d ∣ 10 ^ d := by
  intro d
  induction d using Nat.strong_induction_on with
  | _ d ih =>
    rintro hd ⟨j, h⟩
    by_cases h1 : d = 1
    · subst h1; exact one_dvd _
    · obtain ⟨p, hp, hpd⟩ := Nat.exists_prime_and_dvd h1
      have hp10 : p ∣ 10 := hp.dvd_of_dvd_pow (hpd.trans h)
      have hpg : p ∣ Nat.gcd d 10 := Nat.dvd_gcd hpd hp10
      have hg2 : 2 ≤ Nat.gcd d 10 :=
        le_trans hp.two_le (Nat.le_of_dvd (Nat.gcd_pos_of_pos_left 10 hd) hpg)
      have hgd : Nat.gcd d 10 ∣ d := Nat.gcd_dvd_left d 10
      have hde : Nat.gcd d 10 * (d / Nat.gcd d 10) = d := Nat.mul_div_cancel' hgd
      have helt : d / Nat.gcd d 10 < d := Nat.div_lt_self hd hg2
      have hepos : 0 < d / Nat.gcd d 10 := by
        rcases Nat.eq_zero_or_pos (d / Nat.gcd d 10) with h0 | h0
        · rw [h0, Nat.mul_zero] at hde; omega
        · exact h0
      have hej : d / Nat.gcd d 10 ∣ 10 ^ j :=
        dvd_trans (Dvd.intro_left _ hde) h
      have he10 : d / Nat.gcd d 10 ∣ 10 ^ (d / Nat.gcd d 10) :=
        ih _ helt hepos ⟨j, hej⟩
      calc d = Nat.gcd d 10 * (d / Nat.gcd d 10) := hde.symm
      _ ∣ 10 * 10 ^ (d / Nat.gcd d 10) :=
        mul_dvd_mul (Nat.gcd_dvd_right d 10) he10
      _ = 10 ^ (d / Nat.gcd d 10 + 1) := by ring
      _ ∣ 10 ^ d := pow_dvd_pow 10 (by omega)

theorem findTermK_some {den : Nat} (h2 : 0 < den) (hw : ∃ w, den ∣ 10 ^ w) :
    ∃ k, findTermK den = some k ∧ 0 < k ∧ den ∣ 10 ^ k := by
  have hdd : den ∣ 10 ^ den := dvd_ten_pow_self den h2 hw
  by_cases h1 : den = 1
  · refine ⟨1, ?_, Nat.one_pos, by simp [h1]⟩
    subst h1
    rfl
  · have hmem : den ∈ List.range (den + 1) := by simp
    have hsome : ((List.range (den + 1)).find? fun k =>
        decide (0 < k ∧ den ∣ 10 ^ k)).isSome := by
      rw [List.find?_isSome]
      exact ⟨den, hmem, by simp [h2, hdd]⟩
    obtain ⟨k, hk⟩ := Option.isSome_iff_exists.mp hsome
    have hpk := List.find?_some hk
    simp only [decide_eq_true_eq] at hpk
    exact ⟨k, hk, hpk.1, hpk.2⟩

/-- The positional rendering of a positive rational with a terminating
decimal expansion parses back to the same rational. -/
theorem ratDotBody_spec {x : ℚ} (hpos : 0 < x)
    (hterm : ∃ w, (x.den : Nat) ∣ 10 ^ w)
    (hlo : 1/10^4 ≤ x) (hhi : x < 10^16) :
    ∃ body, ratDotBody x = some body ∧ isBare body = true ∧
      parseUnsigned body = some x ∧
      (∀ c ∈ body, c.isDigit = true ∨ c = '.') := by
  obtain ⟨k, hk, hkpos, hkdvd⟩ := findTermK_some x.den_pos hterm
  refine ⟨natStr (x.num.natAbs * (10 ^ k / x.den) / 10 ^ k) ++ '.' ::
      padZeros k (natStr (x.num.natAbs * (10 ^ k / x.den) % 10 ^ k)), ?_, ?_, ?_, ?_⟩
  · unfold ratDotBody
    rw [if_pos ⟨hlo, hhi⟩, hk]
    rfl
  · exact isBare_append_dot (natStr_ne_nil _) (padZeros_ne_nil (natStr_ne_nil _))
      (natStr_all_digits _) (padZeros_all_digits _ _ (natStr_all_digits _))
  · rw [parseUnsigned_append_dot (natStr_ne_nil _)
      (padZeros_ne_nil (natStr_ne_nil _)) (natStr_all_digits _)
      (padZeros_all_digits _ _ (natStr_all_digits _))]
    have hfrlt : x.num.natAbs * (10 ^ k / x.den) % 10 ^ k < 10 ^ k :=
      Nat.mod_lt _ (by positivity)
    have hlen : (padZeros k (natStr (x.num.natAbs * (10 ^ k / x.den) % 10 ^ k))).length
        = k := padZeros_length (natStr_length_le hkpos hfrlt)
    rw [parseNat_padZeros, parseNat_natStr, parseNat_natStr, hlen]
    congr 1
    have hMsum : 10 ^ k * (x.num.natAbs * (10 ^ k / x.den) / 10 ^ k) +
        x.num.natAbs * (10 ^ k / x.den) % 10 ^ k =
        x.num.natAbs * (10 ^ k / x.den) := Nat.div_add_mod _ _
    have hDmul : x.den * (10 ^ k / x.den) = 10 ^ k := Nat.mul_div_cancel' hkdvd
    have h10 : ((10 : ℚ)) ^ k ≠ 0 := by positivity
    have ht : ((x.den : ℚ)) * ((10 ^ k / x.den : Nat) : ℚ) = (10 : ℚ) ^ k := by
      exact_mod_cast congrArg (fun n : Nat => (n : ℚ)) hDmul
    have htne : (((10 ^ k / x.den : Nat)) : ℚ) ≠ 0 := by
      intro h0
      rw [h0, mul_zero] at ht
      exact absurd ht.symm (by positivity : (0:ℚ) < 10 ^ k).ne'
    have hx : ((x.num.natAbs : ℚ)) / ((x.den : ℚ)) = x := by
      have h1 : ((x.num.natAbs : ℚ)) = ((x.num : ℚ)) := by
        rw [Int.cast_natAbs]
        exact_mod_cast abs_of_pos (Rat.num_pos.mpr hpos)
      rw [h1, Rat.num_div_den]
    calc
      ((x.num.natAbs * (10 ^ k / x.den) / 10 ^ k : Nat) : ℚ) +
          ((x.num.natAbs * (10 ^ k / x.den) % 10 ^ k : Nat) : ℚ) / 10 ^ k
        = ((x.num.natAbs * (10 ^ k / x.den) : Nat) : ℚ) / 10 ^ k := by
          have hcast : ((10:ℚ)) ^ k *
                ((x.num.natAbs * (10 ^ k / x.den) / 10 ^ k : Nat) : ℚ) +
                ((x.num.natAbs * (10 ^ k / x.den) % 10 ^ k : Nat) : ℚ) =
              ((x.num.natAbs * (10 ^ k / x.den) : Nat) : ℚ) := by
            exact_mod_cast congrArg (fun n : Nat => (n : ℚ)) hMsum
          rw [← hcast]
          field_simp
          ring
      _ = (((x.num.natAbs : ℚ)) * ((10 ^ k / x.den : Nat) : ℚ)) /
          (((x.den : ℚ)) * ((10 ^ k / x.den : Nat) : ℚ)) := by
          rw [ht]
          push_cast
          ring_nf
      _ = ((x.num.natAbs : ℚ)) / ((x.den : ℚ)) :=
          mul_div_mul_right _ _ htne
      _ = x := hx
  · intro c hc
    rcases List.mem_append.mp hc with hc | hc
    · exact Or.inl (natStr_all_digits _ c hc)
    · rcases List.mem_cons.mp hc with hc | hc
      · exact Or.inr hc
      · exact Or.inl (padZeros_all_digits _ _ (natStr_all_digits _) c hc)

theorem digit_dot_not_paren {c : Char} (h : c.isDigit = true ∨ c = '.') :
    c ≠ '(' ∧ c ≠ ')' := by
  rcases h with h | h
  · constructor <;> intro he <;> subst he <;> simp at h
  · subst h; exact ⟨by decide, by decide⟩

theorem parseDec_digit_head {l : List Char} (hl : l ≠ [])
    (hd : ∀ c ∈ l, c.isDigit = true ∨ c = '.') :
    parseDec l = parseUnsigned l := by
  obtain ⟨c, rest, rfl⟩ := List.exists_cons_of_ne_nil hl
  unfold parseDec
  rw [if_neg]
  simp only [List.headD_cons]
  rcases hd c (List.mem_cons_self _ _) with h | h
  · intro he; subst he; simp at h
  · subst h; decide

/-- `format_number` produces a full trailing-number match that
`normalize_number` parses back to the original value, for any nonzero value
with a terminating decimal expansion in the positional range of Python's
`str`. -/
theorem format_number_spec (q : ℚ) (h0 : q ≠ 0)
    (hterm : ∃ w, (q.den : Nat) ∣ 10 ^ w)
    (hlo : 1/10^4 ≤ |q|) (hhi : |q| < 10^16) :
    isNumToken (format_number q) = true ∧
    normalize_number (format_number q) = some q := by
  by_cases hden : q.den = 1
  · by_cases hneg : q < 0
    · have hnum : q.num < 0 := Rat.num_neg.mpr hneg
      have hint : intStr q.num = '-' :: natStr q.num.natAbs := by
        unfold intStr; rw [if_pos hnum]
      have hval : -((q.num.natAbs : ℚ)) = q := by
        have h1 : ((q.num.natAbs : ℚ)) = -((q.num : ℚ)) := by
          rw [Int.cast_natAbs]
          exact_mod_cast abs_of_neg hnum
        rw [h1, neg_neg, Rat.coe_int_num_of_den_eq_one hden]
      unfold format_number
      rw [if_pos hden, if_pos hneg, hint]
      constructor
      · have hp : isParenNeg (('(' :: '-' :: natStr q.num.natAbs) ++ [')']) = true :=
          (isParenNeg_iff _).mpr
            ⟨natStr q.num.natAbs,
             isBare_of_digits (natStr_ne_nil _) (natStr_all_digits _), rfl⟩
        have hp2 : isParenNeg ('(' :: '-' ::
            (natStr q.num.natAbs ++ [')'])) = true := hp
        simp [isNumToken, hp2]
      · unfold normalize_number
        rw [show (('(' :: ('-' :: natStr q.num.natAbs) ++ [')']) : List Char) =
          ('(' :: ('-' :: natStr q.num.natAbs)) ++ [')'] from rfl]
        rw [stripParens_wrap (List.cons_ne_nil _ _)]
        · unfold parseDec
          rw [if_pos (by simp)]
          simp only [List.tail_cons]
          rw [parseUnsigned_digits (natStr_ne_nil _) (natStr_all_digits _)]
          rw [parseNat_natStr]
          simp [hval]
        · intro c hc
          rcases List.mem_cons.mp hc with hc | hc
          · subst hc; exact ⟨by decide, by decide⟩
          · exact digit_dot_not_paren (Or.inl (natStr_all_digits _ c hc))
    · have hpos : 0 < q := lt_of_le_of_ne (not_lt.mp hneg) (Ne.symm h0)
      have hnum : ¬ q.num < 0 := by
        simp [Rat.num_neg, not_lt.mpr (le_of_lt hpos)]
      have hint : intStr q.num = natStr q.num.natAbs := by
        unfold intStr; rw [if_neg hnum]
      have hval : ((q.num.natAbs : ℚ)) = q := by
        have h1 : ((q.num.natAbs : ℚ)) = ((q.num : ℚ)) := by
          rw [Int.cast_natAbs]
          exact_mod_cast abs_of_pos (Rat.num_pos.mpr hpos)
        rw [h1, Rat.coe_int_num_of_den_eq_one hden]
      unfold format_number
      rw [if_pos hden, if_neg hneg, hint]
      refine ⟨by simp [isNumToken,
        isBare_of_digits (natStr_ne_nil _) (natStr_all_digits _)], ?_⟩
      unfold normalize_number
      rw [stripParens_no_parens
        (fun c hc => digit_dot_not_paren (Or.inl (natStr_all_digits _ c hc)))]
      rw [parseDec_digit_head (natStr_ne_nil _)
        (fun c hc => Or.inl (natStr_all_digits _ c hc))]
      rw [parseUnsigned_digits (natStr_ne_nil _) (natStr_all_digits _),
        parseNat_natStr, hval]
  · have habs_pos : 0 < |q| := abs_pos.mpr h0
    have habs_den : |q|.den = q.den := by
      rcases lt_or_le q 0 with hq | hq
      · rw [abs_of_neg hq, Rat.den_neg_eq_den]
      · rw [abs_of_nonneg hq]
    obtain ⟨body, hbody, hbare, hparse, hchars⟩ :=
      ratDotBody_spec habs_pos (habs_den ▸ hterm) hlo hhi
    have hbody_ne : body ≠ [] := isBare_ne_nil hbare
    by_cases hneg : q < 0
    · unfold format_number
      rw [if_neg hden, hbody]
      simp only [Option.map_some', Option.getD_some]
      rw [if_pos hneg]
      constructor
      · have hp : isParenNeg (('(' :: '-' :: body) ++ [')']) = true :=
          (isParenNeg_iff _).mpr ⟨body, hbare, rfl⟩
        simp only [List.cons_append] at hp
        simp [isNumToken, hp]
      · unfold normalize_number
        rw [show (('(' :: '-' :: body ++ [')']) : List Char) =
          ('(' :: ('-' :: body)) ++ [')'] from by simp]
        rw [stripParens_wrap (List.cons_ne_nil _ _)]
        · unfold parseDec
          rw [if_pos (by simp)]
          simp only [List.tail_cons]
          rw [hparse]
          have : -|q| = q := by rw [abs_of_neg hneg, neg_neg]
          simp [this]
        · intro c hc
          rcases List.mem_cons.mp hc with hc | hc
          · subst hc; exact ⟨by decide, by decide⟩
          · exact digit_dot_not_paren (hchars c hc)
    · unfold format_number
      rw [if_neg hden, hbody]
      simp only [Option.map_some', Option.getD_some]
      rw [if_neg hneg]
      refine ⟨by simp [isNumToken, hbare], ?_⟩
      unfold normalize_number
      rw [stripParens_no_parens (fun c hc => digit_dot_not_paren (hchars c hc))]
      rw [parseDec_digit_head hbody_ne hchars, hparse,
        abs_of_nonneg (not_lt.mp hneg)]

/-! ## The toggle-sign round trip -/

theorem toggle_sign_eq (s : CalculationState) :
    toggle_sign s =
      match trailingSearch s.expression.toList with
      | none => retNoChange ⟨s.expression, false⟩
      | some pt =>
        match normalize_number pt.2 with
        | none => retNoChange ⟨s.expression, false⟩
        | some q =>
          if q = 0 then retNoChange ⟨s.expression, false⟩
          else retChange ⟨String.mk (pt.1 ++ format_number (-q)), false⟩ := by
  unfold toggle_sign
  rw [resetDone_eq]

/-- One `toggle_sign` press on `p ++ format_number q` replaces the trailing
number with `format_number (-q)`. -/
theorem toggle_sign_step (p : List Char) (q : ℚ)
    (htok : isNumToken (format_number q) = true)
    (hparse : normalize_number (format_number q) = some q)
    (h0 : q ≠ 0)
    (hp : ∀ c, p.getLast? = some c → c.isDigit = false ∧ c ≠ '.') :
    toggle_sign ⟨String.mk (p ++ format_number q), false⟩ =
      ⟨true, String.mk (p ++ format_number (-q)),
        ⟨String.mk (p ++ format_number (-q)), false⟩⟩ := by
  rw [toggle_sign_eq]
  simp only [show (⟨String.mk (p ++ format_number q), false⟩ :
      CalculationState).expression.toList = p ++ format_number q from rfl,
    trailingSearch_append p _ hp htok, hparse, h0, retChange]
  simp [retChange]

/-- **C6** (counterexample).  On the expression `"5.0"` the trailing number
`5.0` is a bare digit run with a fraction, with nonzero value `5`, yet two
presses of `toggle_sign` produce `"5"` — the text is renormalized through
`float`/`str`, so the original `"5.0"` is not restored. -/
theorem c6_toggle_sign_round_trip_counterexample :
    trailingSearch "5.0".toList = some ([], "5.0".toList) ∧
    normalize_number "5.0".toList = some 5 ∧
    (toggle_sign ⟨"5.0", false⟩).changed = true ∧
    (toggle_sign (toggle_sign ⟨"5.0", false⟩).state).changed = true ∧
    (toggle_sign (toggle_sign ⟨"5.0", false⟩).state).state.expression = "5" ∧
    ("5" : String) ≠ "5.0" :=
  ⟨by decide, by decide, by decide, by decide, by decide, by decide⟩

/-- **C6** (amended).  The double-toggle round trip holds on every
expression `p ++ t` whose trailing number `t` is the *canonical* rendering
`format_number q` of its nonzero value `q` — no redundant trailing zeros,
no redundant leading zeros, integers without a decimal point, negatives in
the `(-…)` wrapper — provided `p` does not end in a digit or a dot (else
the regex match after the first toggle absorbs part of `p`), and `q`
stays in the regime where the rational model agrees with IEEE doubles and
the positional form of Python's `str`: a terminating decimal of at most 15
significant digits with `1/10^4 ≤ |q| < 10^16`.  Both presses succeed and
the second restores the text exactly. -/
theorem c6_amended_toggle_sign_involutive
    (p : List Char) (q : ℚ) (m z : ℤ)
    (hq : q = (m : ℚ) * (10 : ℚ) ^ z) (_hm : m.natAbs < 10 ^ 15)
    (h0 : q ≠ 0) (hlo : 1/10^4 ≤ |q|) (hhi : |q| < 10 ^ 16)
    (hp : ∀ c, p.getLast? = some c → c.isDigit = false ∧ c ≠ '.') :
    toggle_sign ⟨String.mk (p ++ format_number q), false⟩ =
      ⟨true, String.mk (p ++ format_number (-q)),
        ⟨String.mk (p ++ format_number (-q)), false⟩⟩ ∧
    toggle_sign ⟨String.mk (p ++ format_number (-q)), false⟩ =
      ⟨true, String.mk (p ++ format_number q),
        ⟨String.mk (p ++ format_number q), false⟩⟩ ∧
    (toggle_sign (toggle_sign
        ⟨String.mk (p ++ format_number q), false⟩).state).state.expression =
      String.mk (p ++ format_number q) := by
  have hterm : ∃ w, (q.den : Nat) ∣ 10 ^ w := by
    rcases le_or_lt 0 z with hz | hz
    · refine ⟨0, ?_⟩
      have hqz : q = ((m * 10 ^ z.toNat : ℤ) : ℚ) := by
        rw [hq]
        push_cast
        rw [← zpow_natCast (10 : ℚ) z.toNat, Int.toNat_of_nonneg hz]
      rw [hqz, Rat.den_intCast]
      simp
    · refine ⟨z.natAbs, ?_⟩
      have hqz : q = Rat.divInt m (10 ^ z.natAbs) := by
        rw [Rat.divInt_eq_div, hq, div_eq_mul_inv]
        congr 1
        push_cast
        rw [← zpow_natCast (10 : ℚ) z.natAbs, ← zpow_neg,
          show -(z.natAbs : ℤ) = z by omega]
      have hdvd := Rat.den_dvd m ((10 : ℤ) ^ z.natAbs)
      rw [← hqz] at hdvd
      exact_mod_cast hdvd
  obtain ⟨htok, hparse⟩ := format_number_spec q h0 hterm hlo hhi
  have h0n : (-q) ≠ 0 := neg_ne_zero.mpr h0
  have htermn : ∃ w, ((-q).den : Nat) ∣ 10 ^ w := by
    rw [Rat.den_neg_eq_den]; exact hterm
  have hlon : 1/10^4 ≤ |(-q)| := by rwa [abs_neg]
  have hhin : |(-q)| < 10 ^ 16 := by rwa [abs_neg]
  obtain ⟨htokn, hparsen⟩ := format_number_spec (-q) h0n htermn hlon hhin
  have s1 := toggle_sign_step p q htok hparse h0 hp
  have s2 := toggle_sign_step p (-q) htokn hparsen h0n hp
  rw [neg_neg] at s2
  refine ⟨s1, s2, ?_⟩
  rw [s1]
  show (toggle_sign ⟨String.mk (p ++ format_number (-q)), false⟩).state.expression = _
  rw [s2]

theorem c6_amended_witness :
    (toggle_sign (toggle_sign ⟨"5", false⟩).state).state.expression = "5" := by
  have h := c6_amended_toggle_sign_involutive [] 5 5 0 (by norm_num) (by decide)
    (by norm_num) (by norm_num) (by norm_num) (by intro c hc; simp at hc)
  have h3 := h.2.2
  have hs : String.mk (([] : List Char) ++ format_number 5) = "5" := by decide
  rw [hs] at h3
  exact h3

end SimpleCalc
